import Mathlib

/-!
Shallow embedding of the RedmontStockExchange matching engine
(`src/models.rs` and `src/order_engine.rs`).

Modelling conventions:
* `rust_decimal::Decimal` values are exact scaled decimals; the engine only
  uses ordering, `min`, addition and subtraction on them, so they are embedded
  as `Int` (the scaled integer representation), which has the same ordered
  additive-group behaviour.
* `Uuid` values are opaque identifiers, embedded as `Nat`.
* Timestamps (`DateTime<Utc>`) are never inspected by the engine logic; they
  are embedded as `Nat` and the external clock `Utc::now()` as the constant 0.
* `Uuid::new_v4()` (fresh random trade id) is external nondeterminism never
  inspected by the engine; it is embedded as the constant 0.
* `BTreeMap<Decimal, Vec<Order>>` is embedded as an association list sorted
  strictly ascending by key, matching `BTreeMap` iteration order; well-
  formedness (sortedness) is a separate predicate, as the operations used by
  the engine preserve it.
* `HashMap<Uuid, Order>` is embedded as an association list with
  insert-replaces semantics.
* Rust panics (`expect`) are embedded by returning `none` from an
  `Option`-valued function.
-/

namespace RSE

inductive OrderType where
  | LIMIT
  | MARKET
deriving DecidableEq, Repr

inductive OrderSide where
  | BUY
  | SELL
deriving DecidableEq, Repr

inductive OrderStatus where
  | PENDING
  | PARTIAL
  | FILLED
  | CANCELLED
  | REJECTED
deriving DecidableEq, Repr

inductive TradeStatus where
  | PENDING_SETTLEMENT
  | SETTLED
  | FAILED
deriving DecidableEq, Repr

/-- The `Order` struct of `models.rs`. -/
structure Order where
  id : Nat
  broker_id : Nat
  instrument_id : Nat
  order_type : OrderType
  side : OrderSide
  status : OrderStatus
  price : Option Int
  original_quantity : Int
  remaining_quantity : Int
  created_at : Nat
  updated_at : Nat
deriving DecidableEq, Repr

/-- The `Trade` struct of `models.rs`. -/
structure Trade where
  id : Nat
  instrument_id : Nat
  buyer_order_id : Nat
  seller_order_id : Nat
  buyer_broker_id : Nat
  seller_broker_id : Nat
  price : Int
  quantity : Int
  execution_time : Nat
  status : TradeStatus
  settlement_time : Option Nat
deriving DecidableEq, Repr

/-- A price ladder: `BTreeMap<Decimal, Vec<Order>>`, kept sorted strictly
ascending by price key (the `BTreeMap` iteration order). -/
abbrev Ladder := List (Int × List Order)

/-- Key lookup, `BTreeMap::get_mut(&price)` (first matching key). -/
def Ladder.getLevel? : Ladder → Int → Option (List Order)
  | [], _ => none
  | (q, os) :: t, p => if q = p then some os else Ladder.getLevel? t p

/-- Replace the queue stored at an existing price key. -/
def Ladder.setLevel : Ladder → Int → List Order → Ladder
  | [], _, _ => []
  | (q, os) :: t, p, os' =>
    if q = p then (q, os') :: t else (q, os) :: Ladder.setLevel t p os'

/-- Delete a price key, `BTreeMap::remove(&price)`. -/
def Ladder.removeKey : Ladder → Int → Ladder
  | [], _ => []
  | (q, os) :: t, p => if q = p then t else (q, os) :: Ladder.removeKey t p

/-- The `entry(price).or_insert_with(Vec::new).push(order)` idiom: append the
order at the tail of its price level, creating the level (at its sorted
position) when absent. -/
def Ladder.push : Ladder → Int → Order → Ladder
  | [], p, o => [(p, [o])]
  | (q, os) :: t, p, o =>
    if p < q then (p, [o]) :: (q, os) :: t
    else if p = q then (q, os ++ [o]) :: t
    else (q, os) :: Ladder.push t p o

/-- All price keys of a ladder. -/
def Ladder.keys (l : Ladder) : List Int := l.map Prod.fst

/-- Total number of resting orders in a ladder. -/
def Ladder.orderCount (l : Ladder) : Nat := (l.map (fun pl => pl.2.length)).sum

/-- Total resting quantity of a ladder. -/
def Ladder.totalQty (l : Ladder) : Int :=
  (l.map (fun pl => (pl.2.map Order.remaining_quantity).sum)).sum

/-- All resting orders of a ladder, best level first, queue order inside. -/
def Ladder.ordersOf (l : Ladder) : List Order := l.flatMap Prod.snd

/-- The order directory: `HashMap<Uuid, Order>`. -/
abbrev Dir := List (Nat × Order)

/-- `HashMap::get(&id)`. -/
def Dir.get? : Dir → Nat → Option Order
  | [], _ => none
  | (k, o) :: t, i => if k = i then some o else Dir.get? t i

/-- `HashMap::insert(id, order)`: replace the existing binding or add one. -/
def Dir.insert : Dir → Nat → Order → Dir
  | [], i, o => [(i, o)]
  | (k, v) :: t, i, o =>
    if k = i then (k, o) :: t else (k, v) :: Dir.insert t i o

/-- The `OrderBook` struct of `order_engine.rs`. -/
structure Book where
  instrument_id : Nat
  bids : Ladder
  asks : Ladder
  orders : Dir
deriving DecidableEq, Repr

/-- `OrderBook::new`. -/
def Book.new (instrument_id : Nat) : Book :=
  { instrument_id := instrument_id, bids := [], asks := [], orders := [] }

/-- `get_best_ask`: the first entry of the asks `BTreeMap` (ascending
iteration, hence the lowest ask price), with its front-of-queue order. -/
def getBestAsk (b : Book) : Option (Int × Order) :=
  match b.asks with
  | [] => none
  | (p, os) :: _ =>
    match os with
    | [] => none
    | o :: _ => some (p, o)

/-- `get_best_bid`: the first entry of the bids `BTreeMap` (ascending
iteration, hence the LOWEST bid price), with its front-of-queue order. -/
def getBestBid (b : Book) : Option (Int × Order) :=
  match b.bids with
  | [] => none
  | (p, os) :: _ =>
    match os with
    | [] => none
    | o :: _ => some (p, o)

/-- The opposite-side best lookup performed at the top of both matching
loops. -/
def bestOpp (side : OrderSide) (b : Book) : Option (Int × Order) :=
  match side with
  | .BUY => getBestAsk b
  | .SELL => getBestBid b

/-- The opposite-side ladder, as selected inside `update_matched_order`. -/
def oppLadder (side : OrderSide) (b : Book) : Ladder :=
  match side with
  | .BUY => b.asks
  | .SELL => b.bids

/-- Write back the opposite-side ladder. -/
def setOppLadder (side : OrderSide) (b : Book) (l : Ladder) : Book :=
  match side with
  | .BUY => { b with asks := l }
  | .SELL => { b with bids := l }

/-- Number of resting orders in the opposite ladder (the loop measure). -/
def oppCount (side : OrderSide) (b : Book) : Nat :=
  (oppLadder side b).orderCount

/-- `prices_match`. -/
def pricesMatch (side : OrderSide) (order_price book_price : Int) : Bool :=
  match side with
  | .BUY => decide (order_price ≥ book_price)
  | .SELL => decide (order_price ≤ book_price)

/-- `create_trade`. -/
def createTrade (b : Book) (order matched_order : Order)
    (price quantity : Int) : Trade :=
  { id := 0
    instrument_id := b.instrument_id
    buyer_order_id :=
      if order.side = .BUY then order.id else matched_order.id
    seller_order_id :=
      if order.side = .SELL then order.id else matched_order.id
    buyer_broker_id :=
      if order.side = .BUY then order.broker_id else matched_order.broker_id
    seller_broker_id :=
      if order.side = .SELL then order.broker_id else matched_order.broker_id
    price := price
    quantity := quantity
    execution_time := 0
    status := .PENDING_SETTLEMENT
    settlement_time := none }

/-- The in-ladder part of `update_matched_order`: at the level stored under
`price`, remove the front order when its remaining equals the trade quantity
(deleting the level if it empties), otherwise decrement the front order and
mark it PARTIAL. -/
def updateLadderAfterMatch (l : Ladder) (price trade_quantity : Int) : Ladder :=
  match l.getLevel? price with
  | none => l
  | some os =>
    match os with
    | [] => l
    | o :: rest =>
      if o.remaining_quantity = trade_quantity then
        if rest = [] then l.removeKey price else l.setLevel price rest
      else
        l.setLevel price
          ({ o with remaining_quantity := o.remaining_quantity - trade_quantity,
                    status := OrderStatus.PARTIAL } :: rest)

/-- `update_matched_order`. -/
def updateMatchedOrder (b : Book) (matched_order : Order)
    (trade_quantity price : Int) (side : OrderSide) : Book :=
  let b1 := setOppLadder side b
    (updateLadderAfterMatch (oppLadder side b) price trade_quantity)
  let updated : Order :=
    { matched_order with
      remaining_quantity := matched_order.remaining_quantity - trade_quantity,
      status :=
        if matched_order.remaining_quantity - trade_quantity = 0 then
          OrderStatus.FILLED
        else OrderStatus.PARTIAL }
  { b1 with orders := b1.orders.insert updated.id updated }

/-- The shared body of one iteration of both matching loops: compute the
trade quantity, emit the trade, decrement the incoming order and update the
matched resting order. Returns (book after, incoming after, trade). -/
def matchStep (b : Book) (order : Order) (best_price : Int)
    (matched : Order) (side : OrderSide) : Book × Order × Trade :=
  let trade_quantity := min order.remaining_quantity matched.remaining_quantity
  let t := createTrade b order matched best_price trade_quantity
  let order' : Order :=
    { order with
      remaining_quantity := order.remaining_quantity - trade_quantity,
      status :=
        if order.remaining_quantity - trade_quantity = 0 then
          OrderStatus.FILLED
        else OrderStatus.PARTIAL }
  (updateMatchedOrder b matched trade_quantity best_price side, order', t)

theorem bestOpp_shape (side : OrderSide) (b : Book) (bp : Int) (m : Order)
    (h : bestOpp side b = some (bp, m)) :
    ∃ rest t, oppLadder side b = (bp, m :: rest) :: t := by
  cases side
  case BUY =>
    simp only [bestOpp, getBestAsk] at h
    rcases hb : b.asks with _ | ⟨⟨p, os⟩, t⟩
    · rw [hb] at h; simp at h
    · rw [hb] at h
      cases os with
      | nil => simp at h
      | cons o rest =>
        simp only [Option.some.injEq, Prod.mk.injEq] at h
        obtain ⟨rfl, rfl⟩ := h
        exact ⟨rest, t, by simp [oppLadder, hb]⟩
  case SELL =>
    simp only [bestOpp, getBestBid] at h
    rcases hb : b.bids with _ | ⟨⟨p, os⟩, t⟩
    · rw [hb] at h; simp at h
    · rw [hb] at h
      cases os with
      | nil => simp at h
      | cons o rest =>
        simp only [Option.some.injEq, Prod.mk.injEq] at h
        obtain ⟨rfl, rfl⟩ := h
        exact ⟨rest, t, by simp [oppLadder, hb]⟩

theorem oppLadder_updateMatched (side : OrderSide) (b : Book) (m : Order)
    (tq p : Int) :
    oppLadder side (updateMatchedOrder b m tq p side) =
      updateLadderAfterMatch (oppLadder side b) p tq := by
  cases side <;> rfl

theorem orderCount_updateLadder_head (p : Int) (o : Order) (rest : List Order)
    (t : Ladder) :
    Ladder.orderCount
      (updateLadderAfterMatch ((p, o :: rest) :: t) p o.remaining_quantity) <
      Ladder.orderCount ((p, o :: rest) :: t) := by
  cases rest with
  | nil =>
    simp [updateLadderAfterMatch, Ladder.getLevel?, Ladder.removeKey,
      Ladder.orderCount]
  | cons o2 rest2 =>
    simp [updateLadderAfterMatch, Ladder.getLevel?, Ladder.setLevel,
      Ladder.orderCount]

theorem oppCount_updateMatched_lt (side : OrderSide) (b : Book) (bp : Int)
    (m : Order) (h : bestOpp side b = some (bp, m)) :
    oppCount side (updateMatchedOrder b m m.remaining_quantity bp side) <
      oppCount side b := by
  obtain ⟨rest, t, hl⟩ := bestOpp_shape side b bp m h
  simp only [oppCount, oppLadder_updateMatched, hl]
  exact orderCount_updateLadder_head bp m rest t

theorem matchStep_remaining (b : Book) (order : Order) (bp : Int)
    (m : Order) (side : OrderSide) :
    (matchStep b order bp m side).2.1.remaining_quantity =
      order.remaining_quantity -
        min order.remaining_quantity m.remaining_quantity := rfl

theorem oppCount_matchStep_lt (side : OrderSide) (b : Book) (order : Order)
    (bp : Int) (m : Order) (h : bestOpp side b = some (bp, m))
    (hz : (matchStep b order bp m side).2.1.remaining_quantity ≠ 0) :
    oppCount side (matchStep b order bp m side).1 < oppCount side b := by
  have hrem := matchStep_remaining b order bp m side
  have hle : min order.remaining_quantity m.remaining_quantity ≤
      order.remaining_quantity := min_le_left _ _
  have hlt : min order.remaining_quantity m.remaining_quantity <
      order.remaining_quantity := by
    rcases lt_or_eq_of_le hle with h' | h'
    · exact h'
    · exfalso; apply hz; rw [hrem, h']; ring
  have hmin : min order.remaining_quantity m.remaining_quantity =
      m.remaining_quantity := by
    rcases le_total order.remaining_quantity m.remaining_quantity with h' | h'
    · exfalso
      rw [min_eq_left h'] at hlt
      exact lt_irrefl _ hlt
    · exact min_eq_right h'
  have : (matchStep b order bp m side).1 =
      updateMatchedOrder b m m.remaining_quantity bp side := by
    simp only [matchStep, hmin]
  rw [this]
  exact oppCount_updateMatched_lt side b bp m h

/-- The matching loop of `process_limit_order`. Returns the book after the
loop, the incoming order after the loop, and the trades in emission order. -/
def limitLoop (side : OrderSide) (price : Int) (b : Book) (order : Order) :
    Book × Order × List Trade :=
  match h : bestOpp side b with
  | some (bp, m) =>
    if pricesMatch side price bp then
      match hs : matchStep b order bp m side with
      | (b', order', t) =>
        if hz : order'.remaining_quantity = 0 then (b', order', [t])
        else
          match limitLoop side price b' order' with
          | (b'', order'', ts) => (b'', order'', t :: ts)
    else (b, order, [])
  | none => (b, order, [])
termination_by oppCount side b
decreasing_by
  have := oppCount_matchStep_lt side b order bp m h
  rw [hs] at this
  exact this (by simpa using hz)

/-- The matching loop of `process_market_order`. -/
def marketLoop (side : OrderSide) (b : Book) (order : Order) :
    Book × Order × List Trade :=
  match h : bestOpp side b with
  | some (bp, m) =>
    match hs : matchStep b order bp m side with
    | (b', order', t) =>
      if hz : order'.remaining_quantity = 0 then (b', order', [t])
      else
        match marketLoop side b' order' with
        | (b'', order'', ts) => (b'', order'', t :: ts)
  | none => (b, { order with status := OrderStatus.REJECTED }, [])
termination_by oppCount side b
decreasing_by
  have := oppCount_matchStep_lt side b order bp m h
  rw [hs] at this
  exact this (by simpa using hz)

/-- `process_limit_order`; `none` models the
`expect("Limit orders must have a price")` panic. -/
def processLimitOrder (b : Book) (order : Order) :
    Option (Book × List Trade) :=
  match order.price with
  | none => none
  | some price =>
    let side := order.side
    match limitLoop side price b order with
    | (b1, o1, ts) =>
      let b2 :=
        if 0 < o1.remaining_quantity then
          match side with
          | .BUY => { b1 with bids := b1.bids.push price o1 }
          | .SELL => { b1 with asks := b1.asks.push price o1 }
        else b1
      some ({ b2 with orders := b2.orders.insert o1.id o1 }, ts)

/-- `process_market_order`. -/
def processMarketOrder (b : Book) (order : Order) : Book × List Trade :=
  match marketLoop order.side b order with
  | (b1, o1, ts) =>
    let o2 :=
      if 0 < o1.remaining_quantity then
        { o1 with status := OrderStatus.REJECTED }
      else o1
    ({ b1 with orders := b1.orders.insert o2.id o2 }, ts)

/-- `add_order`; `none` models the missing-price panic on a LIMIT order. -/
def addOrder (b : Book) (order : Order) : Option (Book × List Trade) :=
  let o : Order := { order with status := OrderStatus.PENDING }
  match o.order_type with
  | .LIMIT => processLimitOrder b o
  | .MARKET => some (processMarketOrder b o)

/-- The `orders.iter().position(|o| o.id == order_id)` followed by
`orders.remove(pos)` step of `cancel_order`: remove the first order with the
given id, keeping the others in their relative order. -/
def removeById : List Order → Nat → Option (Order × List Order)
  | [], _ => none
  | o :: t, i =>
    if o.id = i then some (o, t)
    else
      match removeById t i with
      | some (c, t') => some (c, o :: t')
      | none => none

/-- The `let book = match side { BUY => &mut self.bids, SELL => &mut
self.asks }` selection inside `cancel_order` (the order's OWN side). -/
def sideLadder (side : OrderSide) (b : Book) : Ladder :=
  match side with
  | .BUY => b.bids
  | .SELL => b.asks

/-- Write back the own-side ladder. -/
def setSideLadder (side : OrderSide) (b : Book) (l : Ladder) : Book :=
  match side with
  | .BUY => { b with bids := l }
  | .SELL => { b with asks := l }

/-- `cancel_order`; the outer `none` models the
`expect("Order should have a price")` panic, the inner option is the
function's Rust `Option<Order>` result. No trades are produced: the result
type contains none. -/
def cancelOrder (b : Book) (order_id : Nat) : Option (Option Order × Book) :=
  match b.orders.get? order_id with
  | none => some (none, b)
  | some order =>
    if order.status ≠ OrderStatus.PENDING ∧
        order.status ≠ OrderStatus.PARTIAL then
      some (none, b)
    else
      match order.price with
      | none => none
      | some price =>
        match (sideLadder order.side b).getLevel? price with
        | none => some (none, b)
        | some os =>
          match removeById os order_id with
          | none => some (none, b)
          | some (cancelled, os') =>
            let l' :=
              if os' = [] then (sideLadder order.side b).removeKey price
              else (sideLadder order.side b).setLevel price os'
            let b1 := setSideLadder order.side b l'
            let updated : Order :=
              { cancelled with status := OrderStatus.CANCELLED }
            some (some updated,
              { b1 with orders := b1.orders.insert order_id updated })

theorem setSideLadder_orders (side : OrderSide) (b : Book) (l : Ladder) :
    (setSideLadder side b l).orders = b.orders := by
  cases side <;> rfl

theorem setSideLadder_instrument (side : OrderSide) (b : Book) (l : Ladder) :
    (setSideLadder side b l).instrument_id = b.instrument_id := by
  cases side <;> rfl

/-- The highest bid price present in the bid ladder (the spec's notion of
best bid; note `getBestBid` above returns the ladder's FIRST key, which is
the lowest). -/
def highestBid (b : Book) : Option Int := b.bids.keys.max?

/-- The lowest ask price present in the ask ladder (the spec's notion of
best ask). -/
def lowestAsk (b : Book) : Option Int := b.asks.keys.min?

/-!  Concrete fixtures used by evaluation theorems and witnesses. -/

/-- A fresh order as `submit` expects it: positive quantity, remaining equal
to original. -/
def fixOrder (id : Nat) (ty : OrderType) (sd : OrderSide) (pr : Option Int)
    (q : Int) : Order :=
  { id := id, broker_id := id, instrument_id := 1, order_type := ty,
    side := sd, status := OrderStatus.PENDING, price := pr,
    original_quantity := q, remaining_quantity := q,
    created_at := 0, updated_at := 0 }

def oBuy95 : Order := fixOrder 1 .LIMIT .BUY (some 95) 5
def oBuy100 : Order := fixOrder 2 .LIMIT .BUY (some 100) 5
def oSell90 : Order := fixOrder 3 .LIMIT .SELL (some 90) 5
def oSell98 : Order := fixOrder 4 .LIMIT .SELL (some 98) 5

/-- The book after submitting `oBuy95` to a fresh book. -/
def book95 : Book :=
  { instrument_id := 1, bids := [(95, [oBuy95])], asks := [],
    orders := [(1, oBuy95)] }

/-- The book after additionally submitting `oBuy100`. -/
def book95100 : Book :=
  { instrument_id := 1, bids := [(95, [oBuy95]), (100, [oBuy100])],
    asks := [], orders := [(1, oBuy95), (2, oBuy100)] }

/-- The book after additionally submitting `oSell98`: it rests at 98 while
the bid at 100 is still present. -/
def bookCrossed : Book :=
  { instrument_id := 1, bids := [(95, [oBuy95]), (100, [oBuy100])],
    asks := [(98, [oSell98])],
    orders := [(1, oBuy95), (2, oBuy100), (4, oSell98)] }

/-- C1: with bids resting at 95 and at 100, an incoming SELL that crosses
both is matched against the bid at 95 — the LOWEST bid price — because
`get_best_bid` takes the first (ascending) entry of the bids `BTreeMap`.
The claim requires the highest bid (100) to be matched first. -/
theorem C1_sell_matches_lowest_bid :
    addOrder (Book.new 1) oBuy95 = some (book95, []) ∧
    addOrder book95 oBuy100 = some (book95100, []) ∧
    highestBid book95100 = some 100 ∧
    (addOrder book95100 oSell90).map
        (fun r => r.2.map (fun t => (t.price, t.quantity, t.buyer_order_id))) =
      some [(95, 5, 1)] := by
  refine ⟨?_, ?_, ?_, ?_⟩ <;>
    simp [addOrder, processLimitOrder, limitLoop, matchStep, bestOpp,
      getBestAsk, getBestBid, updateMatchedOrder, updateLadderAfterMatch,
      setOppLadder, oppLadder, Ladder.getLevel?, Ladder.setLevel,
      Ladder.removeKey, Ladder.push, Ladder.keys, Dir.insert, createTrade,
      pricesMatch, highestBid, Book.new, fixOrder, oBuy95, oBuy100, oSell90,
      book95, book95100]

/-- C2: after submitting LIMIT BUY 5@95, LIMIT BUY 5@100 and LIMIT SELL
5@98, both ladders are non-empty with highest bid 100 and lowest ask 98:
the book is crossed at rest, because the incoming sell was tested only
against the lowest bid (95), did not cross it, and rested at 98. -/
theorem C2_book_crossed_at_rest :
    addOrder (Book.new 1) oBuy95 = some (book95, []) ∧
    addOrder book95 oBuy100 = some (book95100, []) ∧
    addOrder book95100 oSell98 = some (bookCrossed, []) ∧
    highestBid bookCrossed = some 100 ∧
    lowestAsk bookCrossed = some 98 ∧
    ¬ (100 : Int) < 98 := by
  refine ⟨?_, ?_, ?_, ?_, ?_, ?_⟩ <;>
    simp [addOrder, processLimitOrder, limitLoop, matchStep, bestOpp,
      getBestAsk, getBestBid, updateMatchedOrder, updateLadderAfterMatch,
      setOppLadder, oppLadder, Ladder.getLevel?, Ladder.setLevel,
      Ladder.removeKey, Ladder.push, Ladder.keys, Dir.insert, createTrade,
      pricesMatch, highestBid, lowestAsk, Book.new, fixOrder, oBuy95,
      oBuy100, oSell98, book95, book95100, bookCrossed]

/-! Directory lemmas. -/

theorem dir_get_insert_self (d : Dir) (i : Nat) (o : Order) :
    (d.insert i o).get? i = some o := by
  induction d with
  | nil => simp [Dir.insert, Dir.get?]
  | cons kv t ih =>
    obtain ⟨k, v⟩ := kv
    by_cases h : k = i <;> simp [Dir.insert, Dir.get?, h, ih]

theorem dir_get_insert_ne (d : Dir) (i j : Nat) (o : Order) (h : j ≠ i) :
    (d.insert i o).get? j = d.get? j := by
  have hij : i ≠ j := Ne.symm h
  induction d with
  | nil => simp [Dir.insert, Dir.get?, hij]
  | cons kv t ih =>
    obtain ⟨k, v⟩ := kv
    by_cases hk : k = i
    · subst hk
      simp [Dir.insert, Dir.get?, hij]
    · simp [Dir.insert, Dir.get?, hk, ih]

/-- Inversion of a successful `cancel_order`: the returned order is marked
CANCELLED, and the final directory is the original one with the returned
order written back under the cancelled id. -/
theorem cancelOrder_success (b : Book) (oid : Nat) (r : Order) (b' : Book)
    (h : cancelOrder b oid = some (some r, b')) :
    r.status = OrderStatus.CANCELLED ∧
      b'.orders = b.orders.insert oid r := by
  unfold cancelOrder at h
  split at h
  · simp at h
  · split at h
    · simp at h
    · split at h
      · exact absurd h (by simp)
      · split at h
        · simp at h
        · split at h
          · simp at h
          · simp only [Option.some.injEq, Prod.mk.injEq] at h
            obtain ⟨h1, h2⟩ := h
            subst h2
            refine ⟨by rw [← h1], ?_⟩
            rw [← h1]
            simp [setSideLadder_orders]

/-- C7: `cancel_order` on an id absent from the directory, or present with a
terminal status (not PENDING and not PARTIAL), returns absence and leaves the
book unchanged; consequently a second cancel of a just-cancelled order
returns absence and is a no-op. -/
theorem C7_cancel_absent_or_terminal (b : Book) (oid : Nat) :
    (b.orders.get? oid = none → cancelOrder b oid = some (none, b)) ∧
    (∀ o, b.orders.get? oid = some o →
      o.status ≠ OrderStatus.PENDING → o.status ≠ OrderStatus.PARTIAL →
      cancelOrder b oid = some (none, b)) ∧
    (∀ r b', cancelOrder b oid = some (some r, b') →
      cancelOrder b' oid = some (none, b')) := by
  refine ⟨?_, ?_, ?_⟩
  · intro h
    simp [cancelOrder, h]
  · intro o hget h1 h2
    simp [cancelOrder, hget, h1, h2]
  · intro r b' h
    obtain ⟨hst, hord⟩ := cancelOrder_success b oid r b' h
    have hget : b'.orders.get? oid = some r := by
      rw [hord]; exact dir_get_insert_self _ _ _
    simp [cancelOrder, hget, hst]

/-- C7 witness: cancelling id 5 on an empty fresh book returns absence and
leaves the book unchanged. -/
theorem C7_witness : cancelOrder (Book.new 1) 5 = some (none, Book.new 1) :=
  (C7_cancel_absent_or_terminal (Book.new 1) 5).1 rfl

theorem removeById_spec (pre : List Order) (c : Order) (post : List Order)
    (oid : Nat) (hc : c.id = oid) (hpre : ∀ x ∈ pre, x.id ≠ oid) :
    removeById (pre ++ c :: post) oid = some (c, pre ++ post) := by
  induction pre with
  | nil => simp [removeById, hc]
  | cons a t ih =>
    have ha : a.id ≠ oid := hpre a (by simp)
    simp [removeById, ha, ih (fun x hx => hpre x (by simp [hx]))]

/-- C6: cancelling an order whose directory entry is PENDING or PARTIAL and
which rests in its side's ladder at its price removes exactly that order
from its level's queue (the other orders keep their relative order), deletes
the level if the queue empties, returns the ladder copy with status
CANCELLED and remaining quantity unchanged, refreshes only its directory
entry, and touches nothing else (the opposite ladder and all other levels
are as before; no trades exist in the result type). -/
theorem C6_cancel_resting (b : Book) (oid : Nat) (ord c : Order) (p : Int)
    (pre post : List Order)
    (hdir : b.orders.get? oid = some ord)
    (hst : ord.status = OrderStatus.PENDING ∨
      ord.status = OrderStatus.PARTIAL)
    (hpr : ord.price = some p)
    (hlvl : (sideLadder ord.side b).getLevel? p = some (pre ++ c :: post))
    (hc : c.id = oid) (hpre : ∀ x ∈ pre, x.id ≠ oid) :
    cancelOrder b oid =
      some (some { c with status := OrderStatus.CANCELLED },
        { setSideLadder ord.side b
            (if pre ++ post = [] then (sideLadder ord.side b).removeKey p
             else (sideLadder ord.side b).setLevel p (pre ++ post)) with
          orders := b.orders.insert oid
            { c with status := OrderStatus.CANCELLED } }) ∧
    ({ c with status := OrderStatus.CANCELLED }).remaining_quantity =
      c.remaining_quantity := by
  have hrm := removeById_spec pre c post oid hc hpre
  have hcond : ¬(ord.status ≠ OrderStatus.PENDING ∧
      ord.status ≠ OrderStatus.PARTIAL) := by
    rcases hst with h | h <;> simp [h]
  refine ⟨?_, rfl⟩
  simp [cancelOrder, hdir, hcond, hpr, hlvl, hrm, setSideLadder_orders]

def oSell7 : Order := fixOrder 7 .LIMIT .SELL (some 100) 10

/-- A book holding the single resting sell `oSell7` at 100. -/
def bookAsk7 : Book :=
  { instrument_id := 1, bids := [], asks := [(100, [oSell7])],
    orders := [(7, oSell7)] }

/-- C6 witness: cancelling the only resting order empties the ask ladder,
returns it CANCELLED with remaining 10, and rewrites its directory entry. -/
theorem C6_witness :
    cancelOrder bookAsk7 7 =
      some (some { oSell7 with status := OrderStatus.CANCELLED },
        { instrument_id := 1, bids := [], asks := [],
          orders := [(7, { oSell7 with status := OrderStatus.CANCELLED })] }) := by
  have h := (C6_cancel_resting bookAsk7 7 oSell7 oSell7 100 [] []
    (by decide) (Or.inl (by decide)) (by decide) (by decide) (by decide)
    (by simp)).1
  simpa [setSideLadder, sideLadder, bookAsk7, Ladder.removeKey, Dir.insert,
    oSell7, fixOrder] using h

/-! Unfolding lemmas for the two matching loops. -/

theorem limitLoop_none (side : OrderSide) (price : Int) (b : Book)
    (order : Order) (h : bestOpp side b = none) :
    limitLoop side price b order = (b, order, []) := by
  rw [limitLoop.eq_def, h]

theorem limitLoop_nocross (side : OrderSide) (price : Int) (b : Book)
    (order : Order) (bp : Int) (m : Order)
    (h : bestOpp side b = some (bp, m))
    (hp : pricesMatch side price bp = false) :
    limitLoop side price b order = (b, order, []) := by
  rw [limitLoop.eq_def, h]
  simp [hp]

theorem limitLoop_last (side : OrderSide) (price : Int) (b : Book)
    (order : Order) (bp : Int) (m : Order) (b' : Book) (order' : Order)
    (t : Trade) (h : bestOpp side b = some (bp, m))
    (hp : pricesMatch side price bp = true)
    (hs : matchStep b order bp m side = (b', order', t))
    (hz : order'.remaining_quantity = 0) :
    limitLoop side price b order = (b', order', [t]) := by
  rw [limitLoop.eq_def, h]
  simp only [hp, if_true]
  rw [hs]
  simp [hz]

theorem limitLoop_continue (side : OrderSide) (price : Int) (b : Book)
    (order : Order) (bp : Int) (m : Order) (b' b'' : Book)
    (order' order'' : Order) (t : Trade) (ts : List Trade)
    (h : bestOpp side b = some (bp, m))
    (hp : pricesMatch side price bp = true)
    (hs : matchStep b order bp m side = (b', order', t))
    (hz : order'.remaining_quantity ≠ 0)
    (hrec : limitLoop side price b' order' = (b'', order'', ts)) :
    limitLoop side price b order = (b'', order'', t :: ts) := by
  rw [limitLoop.eq_def, h]
  simp only [hp, if_true]
  rw [hs]
  simp [hz, hrec]

theorem marketLoop_none (side : OrderSide) (b : Book) (order : Order)
    (h : bestOpp side b = none) :
    marketLoop side b order =
      (b, { order with status := OrderStatus.REJECTED }, []) := by
  rw [marketLoop.eq_def, h]

theorem marketLoop_last (side : OrderSide) (b : Book) (order : Order)
    (bp : Int) (m : Order) (b' : Book) (order' : Order) (t : Trade)
    (h : bestOpp side b = some (bp, m))
    (hs : matchStep b order bp m side = (b', order', t))
    (hz : order'.remaining_quantity = 0) :
    marketLoop side b order = (b', order', [t]) := by
  rw [marketLoop.eq_def, h]
  simp only [hs, hz]
  simp

theorem marketLoop_continue (side : OrderSide) (b : Book) (order : Order)
    (bp : Int) (m : Order) (b' b'' : Book) (order' order'' : Order)
    (t : Trade) (ts : List Trade)
    (h : bestOpp side b = some (bp, m))
    (hs : matchStep b order bp m side = (b', order', t))
    (hz : order'.remaining_quantity ≠ 0)
    (hrec : marketLoop side b' order' = (b'', order'', ts)) :
    marketLoop side b order = (b'', order'', t :: ts) := by
  rw [marketLoop.eq_def, h]
  simp only [hs, hrec]
  simp [hz]

/-! Properties of a single matching step. -/

theorem matchStep_inv (b : Book) (order : Order) (bp : Int) (m : Order)
    (side : OrderSide) (b' : Book) (order' : Order) (t : Trade)
    (hs : matchStep b order bp m side = (b', order', t)) :
    b' = updateMatchedOrder b m
        (min order.remaining_quantity m.remaining_quantity) bp side ∧
    order' = { order with
      remaining_quantity := order.remaining_quantity -
        min order.remaining_quantity m.remaining_quantity,
      status :=
        if order.remaining_quantity -
            min order.remaining_quantity m.remaining_quantity = 0 then
          OrderStatus.FILLED
        else OrderStatus.PARTIAL } ∧
    t = createTrade b order m bp
        (min order.remaining_quantity m.remaining_quantity) := by
  have h : (b', order', t) =
      (updateMatchedOrder b m
        (min order.remaining_quantity m.remaining_quantity) bp side,
       { order with
          remaining_quantity := order.remaining_quantity -
            min order.remaining_quantity m.remaining_quantity,
          status :=
            if order.remaining_quantity -
                min order.remaining_quantity m.remaining_quantity = 0 then
              OrderStatus.FILLED
            else OrderStatus.PARTIAL },
       createTrade b order m bp
        (min order.remaining_quantity m.remaining_quantity)) := by
    rw [← hs]; rfl
  simpa using h

theorem createTrade_price_quantity (b : Book) (o m : Order) (p q : Int) :
    (createTrade b o m p q).price = p ∧ (createTrade b o m p q).quantity = q :=
  ⟨rfl, rfl⟩

/-! Ladder bookkeeping under a match. -/

theorem totalQty_updateLadder_head (p tq : Int) (o : Order)
    (rest : List Order) (t : Ladder) :
    Ladder.totalQty (updateLadderAfterMatch ((p, o :: rest) :: t) p tq) =
      Ladder.totalQty ((p, o :: rest) :: t) - tq := by
  by_cases he : o.remaining_quantity = tq
  · cases rest with
    | nil =>
      simp [updateLadderAfterMatch, Ladder.getLevel?, Ladder.removeKey,
        Ladder.totalQty, he]
    | cons o2 r2 =>
      simp [updateLadderAfterMatch, Ladder.getLevel?, Ladder.setLevel,
        Ladder.totalQty, he]
      ring
  · simp [updateLadderAfterMatch, Ladder.getLevel?, Ladder.setLevel,
      Ladder.totalQty, he]
    ring

theorem keys_setLevel (l : Ladder) (p : Int) (os : List Order) :
    Ladder.keys (Ladder.setLevel l p os) = Ladder.keys l := by
  induction l with
  | nil => rfl
  | cons kv t ih =>
    obtain ⟨q, v⟩ := kv
    by_cases h : q = p <;> simp [Ladder.setLevel, Ladder.keys, h] <;>
      simpa [Ladder.keys] using ih

theorem keys_removeKey_subset (l : Ladder) (p : Int) :
    ∀ k ∈ Ladder.keys (Ladder.removeKey l p), k ∈ Ladder.keys l := by
  induction l with
  | nil => simp [Ladder.removeKey]
  | cons kv t ih =>
    obtain ⟨q, v⟩ := kv
    by_cases h : q = p
    · subst h
      simp only [Ladder.removeKey, if_pos rfl]
      intro k hk
      simp only [Ladder.keys, List.map_cons, List.mem_cons]
      exact Or.inr hk
    · intro k hk
      simp only [Ladder.removeKey, if_neg h, Ladder.keys, List.map_cons,
        List.mem_cons] at hk
      rcases hk with hk | hk
      · simp [Ladder.keys, hk]
      · exact List.mem_cons_of_mem _ (ih k hk)

theorem keys_updateLadder_subset (l : Ladder) (p tq : Int) :
    ∀ k ∈ Ladder.keys (updateLadderAfterMatch l p tq), k ∈ Ladder.keys l := by
  intro k hk
  unfold updateLadderAfterMatch at hk
  split at hk
  · exact hk
  · split at hk
    · exact hk
    · split at hk
      · split at hk
        · exact keys_removeKey_subset l p k hk
        · rwa [keys_setLevel] at hk
      · rwa [keys_setLevel] at hk

/-- Total traded quantity of a list of trades. -/
def sumQty (ts : List Trade) : Int := (ts.map Trade.quantity).sum

/-- Conservation through the limit matching loop: the incoming order's
remaining quantity decreases by exactly the total traded quantity, and the
opposite ladder's total resting quantity decreases by the same amount. -/
theorem limitLoop_conservation (side : OrderSide) (price : Int) (b : Book)
    (order : Order) :
    (limitLoop side price b order).2.1.remaining_quantity +
      sumQty (limitLoop side price b order).2.2 =
      order.remaining_quantity ∧
    Ladder.totalQty (oppLadder side (limitLoop side price b order).1) +
      sumQty (limitLoop side price b order).2.2 =
      Ladder.totalQty (oppLadder side b) := by
  induction b, order using limitLoop.induct side price with
  | case1 b order bp m h hp b' order' t hs hz =>
    rw [limitLoop_last side price b order bp m b' order' t h hp hs hz]
    obtain ⟨hb', ho', ht⟩ := matchStep_inv b order bp m side b' order' t hs
    obtain ⟨rest, tl, hshape⟩ := bestOpp_shape side b bp m h
    constructor
    · rw [ho', ht]
      simp [sumQty, createTrade]
    · rw [hb', ht, oppLadder_updateMatched, hshape,
        totalQty_updateLadder_head]
      simp [sumQty, createTrade]
  | case2 b order bp m h hp b' order' t hs hz b'' order'' ts hrec ih =>
    rw [limitLoop_continue side price b order bp m b' b'' order' order'' t ts
      h hp hs hz hrec]
    rw [hrec] at ih
    obtain ⟨hb', ho', ht⟩ := matchStep_inv b order bp m side b' order' t hs
    obtain ⟨rest, tl, hshape⟩ := bestOpp_shape side b bp m h
    obtain ⟨ih1, ih2⟩ := ih
    have hqt : t.quantity =
        min order.remaining_quantity m.remaining_quantity := by
      rw [ht]; rfl
    have hor : order'.remaining_quantity = order.remaining_quantity -
        min order.remaining_quantity m.remaining_quantity := by
      rw [ho']
    have htot : Ladder.totalQty (oppLadder side b') =
        Ladder.totalQty (oppLadder side b) -
          min order.remaining_quantity m.remaining_quantity := by
      rw [hb', oppLadder_updateMatched, hshape, totalQty_updateLadder_head,
        ← hshape]
    constructor
    · simp only [sumQty, List.map_cons, List.sum_cons] at *
      rw [hqt]
      rw [hor] at ih1
      linarith
    · simp only [sumQty, List.map_cons, List.sum_cons] at *
      rw [hqt]
      rw [htot] at ih2
      linarith
  | case3 b order bp m h hp =>
    rw [limitLoop_nocross side price b order bp m h (by simpa using hp)]
    simp [sumQty]
  | case4 b order h =>
    rw [limitLoop_none side price b order h]
    simp [sumQty]

/-- Conservation through the market matching loop. -/
theorem marketLoop_conservation (side : OrderSide) (b : Book)
    (order : Order) :
    (marketLoop side b order).2.1.remaining_quantity +
      sumQty (marketLoop side b order).2.2 =
      order.remaining_quantity ∧
    Ladder.totalQty (oppLadder side (marketLoop side b order).1) +
      sumQty (marketLoop side b order).2.2 =
      Ladder.totalQty (oppLadder side b) := by
  induction b, order using marketLoop.induct side with
  | case1 b order bp m h b' order' t hs hz =>
    rw [marketLoop_last side b order bp m b' order' t h hs hz]
    obtain ⟨hb', ho', ht⟩ := matchStep_inv b order bp m side b' order' t hs
    obtain ⟨rest, tl, hshape⟩ := bestOpp_shape side b bp m h
    constructor
    · rw [ho', ht]
      simp [sumQty, createTrade]
    · rw [hb', ht, oppLadder_updateMatched, hshape,
        totalQty_updateLadder_head]
      simp [sumQty, createTrade]
  | case2 b order bp m h b' order' t hs hz b'' order'' ts hrec ih =>
    rw [marketLoop_continue side b order bp m b' b'' order' order'' t ts
      h hs hz hrec]
    rw [hrec] at ih
    obtain ⟨hb', ho', ht⟩ := matchStep_inv b order bp m side b' order' t hs
    obtain ⟨rest, tl, hshape⟩ := bestOpp_shape side b bp m h
    obtain ⟨ih1, ih2⟩ := ih
    have hqt : t.quantity =
        min order.remaining_quantity m.remaining_quantity := by
      rw [ht]; rfl
    have hor : order'.remaining_quantity = order.remaining_quantity -
        min order.remaining_quantity m.remaining_quantity := by
      rw [ho']
    have htot : Ladder.totalQty (oppLadder side b') =
        Ladder.totalQty (oppLadder side b) -
          min order.remaining_quantity m.remaining_quantity := by
      rw [hb', oppLadder_updateMatched, hshape, totalQty_updateLadder_head,
        ← hshape]
    constructor
    · simp only [sumQty, List.map_cons, List.sum_cons] at *
      rw [hqt]
      rw [hor] at ih1
      linarith
    · simp only [sumQty, List.map_cons, List.sum_cons] at *
      rw [hqt]
      rw [htot] at ih2
      linarith
  | case3 b order h =>
    rw [marketLoop_none side b order h]
    simp [sumQty]

/-- Each continuing iteration removes a resting order, so the number of
trades is bounded by the initial opposite-ladder population plus one. -/
theorem limitLoop_length (side : OrderSide) (price : Int) (b : Book)
    (order : Order) :
    (limitLoop side price b order).2.2.length ≤ oppCount side b + 1 := by
  induction b, order using limitLoop.induct side price with
  | case1 b order bp m h hp b' order' t hs hz =>
    rw [limitLoop_last side price b order bp m b' order' t h hp hs hz]
    simp
  | case2 b order bp m h hp b' order' t hs hz b'' order'' ts hrec ih =>
    rw [limitLoop_continue side price b order bp m b' b'' order' order'' t ts
      h hp hs hz hrec]
    rw [hrec] at ih
    have hz' : (matchStep b order bp m side).2.1.remaining_quantity ≠ 0 := by
      rw [hs]; exact hz
    have hlt := oppCount_matchStep_lt side b order bp m h hz'
    rw [hs] at hlt
    simp at ih hlt ⊢
    omega
  | case3 b order bp m h hp =>
    rw [limitLoop_nocross side price b order bp m h (by simpa using hp)]
    simp
  | case4 b order h =>
    rw [limitLoop_none side price b order h]
    simp

theorem marketLoop_length (side : OrderSide) (b : Book) (order : Order) :
    (marketLoop side b order).2.2.length ≤ oppCount side b + 1 := by
  induction b, order using marketLoop.induct side with
  | case1 b order bp m h b' order' t hs hz =>
    rw [marketLoop_last side b order bp m b' order' t h hs hz]
    simp
  | case2 b order bp m h b' order' t hs hz b'' order'' ts hrec ih =>
    rw [marketLoop_continue side b order bp m b' b'' order' order'' t ts
      h hs hz hrec]
    rw [hrec] at ih
    have hz' : (matchStep b order bp m side).2.1.remaining_quantity ≠ 0 := by
      rw [hs]; exact hz
    have hlt := oppCount_matchStep_lt side b order bp m h hz'
    rw [hs] at hlt
    simp at ih hlt ⊢
    omega
  | case3 b order h =>
    rw [marketLoop_none side b order h]
    simp

/-- Every trade emitted by the limit loop carries a price key of the
opposite ladder as it stood when the submit began (a resting level's price,
never a price taken from the incoming order). -/
theorem limitLoop_trade_prices (side : OrderSide) (price : Int) (b : Book)
    (order : Order) :
    ∀ t ∈ (limitLoop side price b order).2.2,
      t.price ∈ Ladder.keys (oppLadder side b) := by
  induction b, order using limitLoop.induct side price with
  | case1 b order bp m h hp b' order' t hs hz =>
    rw [limitLoop_last side price b order bp m b' order' t h hp hs hz]
    intro t' ht'
    simp only [List.mem_singleton] at ht'
    rw [ht']
    obtain ⟨hb', ho', ht⟩ := matchStep_inv b order bp m side b' order' t hs
    obtain ⟨rest, tl, hshape⟩ := bestOpp_shape side b bp m h
    rw [ht, hshape]
    simp [createTrade, Ladder.keys]
  | case2 b order bp m h hp b' order' t hs hz b'' order'' ts hrec ih =>
    rw [limitLoop_continue side price b order bp m b' b'' order' order'' t ts
      h hp hs hz hrec]
    rw [hrec] at ih
    intro t' ht'
    obtain ⟨hb', ho', ht⟩ := matchStep_inv b order bp m side b' order' t hs
    obtain ⟨rest, tl, hshape⟩ := bestOpp_shape side b bp m h
    rcases List.mem_cons.mp ht' with h1 | h1
    · subst h1
      rw [ht, hshape]
      simp [createTrade, Ladder.keys]
    · have := ih t' h1
      rw [hb', oppLadder_updateMatched] at this
      exact keys_updateLadder_subset (oppLadder side b) bp _ t'.price this
  | case3 b order bp m h hp =>
    rw [limitLoop_nocross side price b order bp m h (by simpa using hp)]
    simp
  | case4 b order h =>
    rw [limitLoop_none side price b order h]
    simp

theorem marketLoop_trade_prices (side : OrderSide) (b : Book)
    (order : Order) :
    ∀ t ∈ (marketLoop side b order).2.2,
      t.price ∈ Ladder.keys (oppLadder side b) := by
  induction b, order using marketLoop.induct side with
  | case1 b order bp m h b' order' t hs hz =>
    rw [marketLoop_last side b order bp m b' order' t h hs hz]
    intro t' ht'
    simp only [List.mem_singleton] at ht'
    rw [ht']
    obtain ⟨hb', ho', ht⟩ := matchStep_inv b order bp m side b' order' t hs
    obtain ⟨rest, tl, hshape⟩ := bestOpp_shape side b bp m h
    rw [ht, hshape]
    simp [createTrade, Ladder.keys]
  | case2 b order bp m h b' order' t hs hz b'' order'' ts hrec ih =>
    rw [marketLoop_continue side b order bp m b' b'' order' order'' t ts
      h hs hz hrec]
    rw [hrec] at ih
    intro t' ht'
    obtain ⟨hb', ho', ht⟩ := matchStep_inv b order bp m side b' order' t hs
    obtain ⟨rest, tl, hshape⟩ := bestOpp_shape side b bp m h
    rcases List.mem_cons.mp ht' with h1 | h1
    · subst h1
      rw [ht, hshape]
      simp [createTrade, Ladder.keys]
    · have := ih t' h1
      rw [hb', oppLadder_updateMatched] at this
      exact keys_updateLadder_subset (oppLadder side b) bp _ t'.price this
  | case3 b order h =>
    rw [marketLoop_none side b order h]
    simp

/-- Equality of all order fields except `remaining_quantity` and `status`
(the only fields the matching loops write on the incoming order). -/
def coreEq (a o : Order) : Prop :=
  a.id = o.id ∧ a.broker_id = o.broker_id ∧
  a.instrument_id = o.instrument_id ∧ a.order_type = o.order_type ∧
  a.side = o.side ∧ a.price = o.price ∧
  a.original_quantity = o.original_quantity ∧ a.created_at = o.created_at ∧
  a.updated_at = o.updated_at

theorem coreEq_refl (o : Order) : coreEq o o :=
  ⟨rfl, rfl, rfl, rfl, rfl, rfl, rfl, rfl, rfl⟩

theorem coreEq_trans {a b c : Order} (h1 : coreEq a b) (h2 : coreEq b c) :
    coreEq a c := by
  obtain ⟨a1, a2, a3, a4, a5, a6, a7, a8, a9⟩ := h1
  obtain ⟨c1, c2, c3, c4, c5, c6, c7, c8, c9⟩ := h2
  exact ⟨a1.trans c1, a2.trans c2, a3.trans c3, a4.trans c4, a5.trans c5,
    a6.trans c6, a7.trans c7, a8.trans c8, a9.trans c9⟩

theorem limitLoop_coreEq (side : OrderSide) (price : Int) (b : Book)
    (order : Order) :
    coreEq (limitLoop side price b order).2.1 order := by
  induction b, order using limitLoop.induct side price with
  | case1 b order bp m h hp b' order' t hs hz =>
    rw [limitLoop_last side price b order bp m b' order' t h hp hs hz]
    obtain ⟨hb', ho', ht⟩ := matchStep_inv b order bp m side b' order' t hs
    rw [ho']
    exact ⟨rfl, rfl, rfl, rfl, rfl, rfl, rfl, rfl, rfl⟩
  | case2 b order bp m h hp b' order' t hs hz b'' order'' ts hrec ih =>
    rw [limitLoop_continue side price b order bp m b' b'' order' order'' t ts
      h hp hs hz hrec]
    rw [hrec] at ih
    obtain ⟨hb', ho', ht⟩ := matchStep_inv b order bp m side b' order' t hs
    have h2 : coreEq order' order := by
      rw [ho']
      exact ⟨rfl, rfl, rfl, rfl, rfl, rfl, rfl, rfl, rfl⟩
    exact coreEq_trans ih h2
  | case3 b order bp m h hp =>
    rw [limitLoop_nocross side price b order bp m h (by simpa using hp)]
    exact coreEq_refl order
  | case4 b order h =>
    rw [limitLoop_none side price b order h]
    exact coreEq_refl order

theorem marketLoop_coreEq (side : OrderSide) (b : Book) (order : Order) :
    coreEq (marketLoop side b order).2.1 order := by
  induction b, order using marketLoop.induct side with
  | case1 b order bp m h b' order' t hs hz =>
    rw [marketLoop_last side b order bp m b' order' t h hs hz]
    obtain ⟨hb', ho', ht⟩ := matchStep_inv b order bp m side b' order' t hs
    rw [ho']
    exact ⟨rfl, rfl, rfl, rfl, rfl, rfl, rfl, rfl, rfl⟩
  | case2 b order bp m h b' order' t hs hz b'' order'' ts hrec ih =>
    rw [marketLoop_continue side b order bp m b' b'' order' order'' t ts
      h hs hz hrec]
    rw [hrec] at ih
    obtain ⟨hb', ho', ht⟩ := matchStep_inv b order bp m side b' order' t hs
    have h2 : coreEq order' order := by
      rw [ho']
      exact ⟨rfl, rfl, rfl, rfl, rfl, rfl, rfl, rfl, rfl⟩
    exact coreEq_trans ih h2
  | case3 b order h =>
    rw [marketLoop_none side b order h]
    exact ⟨rfl, rfl, rfl, rfl, rfl, rfl, rfl, rfl, rfl⟩

/-- An incoming order that leaves the limit loop with positive remaining
quantity has its entry status or PARTIAL. -/
theorem limitLoop_status_pos (side : OrderSide) (price : Int) (b : Book)
    (order : Order) :
    0 < (limitLoop side price b order).2.1.remaining_quantity →
      (limitLoop side price b order).2.1.status = order.status ∨
      (limitLoop side price b order).2.1.status = OrderStatus.PARTIAL := by
  induction b, order using limitLoop.induct side price with
  | case1 b order bp m h hp b' order' t hs hz =>
    rw [limitLoop_last side price b order bp m b' order' t h hp hs hz]
    intro hpos
    simp only at hpos
    omega
  | case2 b order bp m h hp b' order' t hs hz b'' order'' ts hrec ih =>
    rw [limitLoop_continue side price b order bp m b' b'' order' order'' t ts
      h hp hs hz hrec]
    rw [hrec] at ih
    intro hpos
    obtain ⟨hb', ho', ht⟩ := matchStep_inv b order bp m side b' order' t hs
    have host : order'.status = OrderStatus.PARTIAL := by
      rw [ho'] at hz ⊢
      simp only at hz ⊢
      simp [hz]
    rcases ih (by simpa using hpos) with h1 | h1
    · right
      simpa [host] using h1
    · right
      exact h1
  | case3 b order bp m h hp =>
    rw [limitLoop_nocross side price b order bp m h (by simpa using hp)]
    intro _
    exact Or.inl rfl
  | case4 b order h =>
    rw [limitLoop_none side price b order h]
    intro _
    exact Or.inl rfl

/-- The market loop always exits with a FILLED or REJECTED incoming
order. -/
theorem marketLoop_final_status (side : OrderSide) (b : Book)
    (order : Order) :
    (marketLoop side b order).2.1.status = OrderStatus.FILLED ∨
      (marketLoop side b order).2.1.status = OrderStatus.REJECTED := by
  induction b, order using marketLoop.induct side with
  | case1 b order bp m h b' order' t hs hz =>
    rw [marketLoop_last side b order bp m b' order' t h hs hz]
    obtain ⟨hb', ho', ht⟩ := matchStep_inv b order bp m side b' order' t hs
    left
    rw [ho'] at hz ⊢
    simp only at hz ⊢
    simp [hz]
  | case2 b order bp m h b' order' t hs hz b'' order'' ts hrec ih =>
    rw [marketLoop_continue side b order bp m b' b'' order' order'' t ts
      h hs hz hrec]
    rw [hrec] at ih
    simpa using ih
  | case3 b order h =>
    rw [marketLoop_none side b order h]
    right
    rfl

/-- If the market loop exits with positive remaining quantity, the opposite
ladder has been exhausted ( `bestOpp` is `none` on the final book) and the
order has been marked REJECTED. -/
theorem marketLoop_exhausted (side : OrderSide) (b : Book) (order : Order) :
    0 < (marketLoop side b order).2.1.remaining_quantity →
      bestOpp side (marketLoop side b order).1 = none ∧
      (marketLoop side b order).2.1.status = OrderStatus.REJECTED := by
  induction b, order using marketLoop.induct side with
  | case1 b order bp m h b' order' t hs hz =>
    rw [marketLoop_last side b order bp m b' order' t h hs hz]
    intro hpos
    simp only at hpos
    omega
  | case2 b order bp m h b' order' t hs hz b'' order'' ts hrec ih =>
    rw [marketLoop_continue side b order bp m b' b'' order' order'' t ts
      h hs hz hrec]
    rw [hrec] at ih
    intro hpos
    simpa using ih (by simpa using hpos)
  | case3 b order h =>
    rw [marketLoop_none side b order h]
    intro _
    exact ⟨h, rfl⟩

/-! Inversion of `add_order` into its two processing paths. -/

theorem addOrder_limit (b : Book) (o : Order)
    (hty : o.order_type = OrderType.LIMIT) :
    addOrder b o =
      processLimitOrder b { o with status := OrderStatus.PENDING } := by
  unfold addOrder
  have h : ({ o with status := OrderStatus.PENDING } : Order).order_type =
      OrderType.LIMIT := hty
  rw [h]

theorem addOrder_market (b : Book) (o : Order)
    (hty : o.order_type = OrderType.MARKET) :
    addOrder b o =
      some (processMarketOrder b { o with status := OrderStatus.PENDING }) := by
  unfold addOrder
  have h : ({ o with status := OrderStatus.PENDING } : Order).order_type =
      OrderType.MARKET := hty
  rw [h]

theorem processLimitOrder_eq (b : Book) (o : Order) (p : Int) (b1 : Book)
    (o1 : Order) (ts : List Trade) (hpr : o.price = some p)
    (hl : limitLoop o.side p b o = (b1, o1, ts)) :
    processLimitOrder b o =
      some (if 0 < o1.remaining_quantity then
          match o.side with
          | OrderSide.BUY =>
            { b1 with bids := b1.bids.push p o1,
                      orders := b1.orders.insert o1.id o1 }
          | OrderSide.SELL =>
            { b1 with asks := b1.asks.push p o1,
                      orders := b1.orders.insert o1.id o1 }
        else { b1 with orders := b1.orders.insert o1.id o1 }, ts) := by
  unfold processLimitOrder
  rw [hpr]
  simp only [hl]
  by_cases hq : 0 < o1.remaining_quantity
  · simp only [hq, if_true]
    cases hside : o.side <;> simp
  · simp [hq]

theorem processLimitOrder_ts (b : Book) (o : Order) (b' : Book)
    (ts : List Trade) (h : processLimitOrder b o = some (b', ts)) :
    ∃ p b1 o1, o.price = some p ∧ limitLoop o.side p b o = (b1, o1, ts) := by
  unfold processLimitOrder at h
  split at h
  · exact absurd h (by simp)
  · rename_i p hpr
    rcases hl : limitLoop o.side p b o with ⟨b1, o1, ts1⟩
    simp only [hl, Option.some.injEq, Prod.mk.injEq] at h
    exact ⟨p, b1, o1, hpr, by rw [hl, h.2]⟩

theorem processMarketOrder_pos (b : Book) (o : Order) (b1 : Book)
    (o1 : Order) (ts : List Trade) (hl : marketLoop o.side b o = (b1, o1, ts))
    (hq : 0 < o1.remaining_quantity) :
    processMarketOrder b o =
      ({ b1 with orders :=
          b1.orders.insert o1.id { o1 with status := OrderStatus.REJECTED } },
        ts) := by
  unfold processMarketOrder
  simp only [hl]
  simp [hq]

theorem processMarketOrder_nonpos (b : Book) (o : Order) (b1 : Book)
    (o1 : Order) (ts : List Trade) (hl : marketLoop o.side b o = (b1, o1, ts))
    (hq : ¬ 0 < o1.remaining_quantity) :
    processMarketOrder b o =
      ({ b1 with orders := b1.orders.insert o1.id o1 }, ts) := by
  unfold processMarketOrder
  simp only [hl]
  simp [hq]

theorem processMarketOrder_ts (b : Book) (o : Order) :
    (processMarketOrder b o).2 = (marketLoop o.side b o).2.2 := by
  rcases hl : marketLoop o.side b o with ⟨b1, o1, ts⟩
  by_cases hq : 0 < o1.remaining_quantity
  · rw [processMarketOrder_pos b o b1 o1 ts hl hq]
  · rw [processMarketOrder_nonpos b o b1 o1 ts hl hq]

theorem updateLadder_shape (p tq : Int) (m : Order) (rest : List Order)
    (tl : Ladder) :
    updateLadderAfterMatch ((p, m :: rest) :: tl) p tq =
      if m.remaining_quantity = tq then
        (if rest = [] then tl else (p, rest) :: tl)
      else
        (p, { m with remaining_quantity := m.remaining_quantity - tq,
                     status := OrderStatus.PARTIAL } :: rest) :: tl := by
  by_cases he : m.remaining_quantity = tq
  · by_cases hr : rest = [] <;>
      simp [updateLadderAfterMatch, Ladder.getLevel?, Ladder.removeKey,
        Ladder.setLevel, he, hr]
  · simp [updateLadderAfterMatch, Ladder.getLevel?, Ladder.setLevel, he]

/-- C3: each generated trade's quantity equals min(incoming remaining,
resting remaining) at match time; the incoming order's remaining and the
resting order's remaining (in the in-ladder copy and in the directory copy
written back) each decrease by exactly the trade quantity; and over a whole
matching loop quantity is conserved: the incoming order's final remaining
plus the traded total equals its entry remaining, and the opposite ladder's
total resting quantity decreases by exactly the traded total. -/
theorem C3_conservation :
    (∀ b order bp m side b' order' t,
      bestOpp side b = some (bp, m) →
      matchStep b order bp m side = (b', order', t) →
      t.quantity = min order.remaining_quantity m.remaining_quantity ∧
      order'.remaining_quantity = order.remaining_quantity - t.quantity ∧
      b'.orders.get? m.id =
        some { m with
          remaining_quantity := m.remaining_quantity - t.quantity,
          status := if m.remaining_quantity - t.quantity = 0
            then OrderStatus.FILLED else OrderStatus.PARTIAL } ∧
      (∀ rest tl, oppLadder side b = (bp, m :: rest) :: tl →
        oppLadder side b' =
          if m.remaining_quantity = t.quantity then
            (if rest = [] then tl else (bp, rest) :: tl)
          else
            (bp, { m with remaining_quantity :=
                            m.remaining_quantity - t.quantity,
                          status := OrderStatus.PARTIAL } :: rest) :: tl)) ∧
    (∀ side price b order,
      (limitLoop side price b order).2.1.remaining_quantity +
          sumQty (limitLoop side price b order).2.2 =
          order.remaining_quantity ∧
        Ladder.totalQty (oppLadder side (limitLoop side price b order).1) +
          sumQty (limitLoop side price b order).2.2 =
          Ladder.totalQty (oppLadder side b)) ∧
    (∀ side b order,
      (marketLoop side b order).2.1.remaining_quantity +
          sumQty (marketLoop side b order).2.2 =
          order.remaining_quantity ∧
        Ladder.totalQty (oppLadder side (marketLoop side b order).1) +
          sumQty (marketLoop side b order).2.2 =
          Ladder.totalQty (oppLadder side b)) := by
  refine ⟨?_, fun side price b order =>
    limitLoop_conservation side price b order,
    fun side b order => marketLoop_conservation side b order⟩
  intro b order bp m side b' order' t hbest hs
  obtain ⟨hb', ho', ht⟩ := matchStep_inv b order bp m side b' order' t hs
  have hqt : t.quantity = min order.remaining_quantity m.remaining_quantity := by
    rw [ht]; rfl
  refine ⟨hqt, by rw [ho', hqt], ?_, ?_⟩
  · rw [hb', hqt]
    exact dir_get_insert_self _ _ _
  · intro rest tl hshape
    rw [hb', oppLadder_updateMatched, hshape, hqt, updateLadder_shape]

def oBuy4 : Order := fixOrder 12 .LIMIT .BUY (some 100) 4

/-- C3 witness: a LIMIT BUY of 4 against the resting SELL of 10 at 100
trades quantity min(4, 10) = 4 and quantity is conserved over the loop. -/
theorem C3_witness :
    (matchStep bookAsk7 oBuy4 100 oSell7 OrderSide.BUY).2.2.quantity =
        min oBuy4.remaining_quantity oSell7.remaining_quantity ∧
    (limitLoop OrderSide.BUY 100 bookAsk7 oBuy4).2.1.remaining_quantity +
        sumQty (limitLoop OrderSide.BUY 100 bookAsk7 oBuy4).2.2 =
        oBuy4.remaining_quantity := by
  constructor
  · exact (C3_conservation.1 bookAsk7 oBuy4 100 oSell7 OrderSide.BUY
      _ _ _ rfl rfl).1
  · exact (C3_conservation.2.1 OrderSide.BUY 100 bookAsk7 oBuy4).1

/-- C9: add_order always returns, and the number of trades it emits (one
per loop iteration except the final exit) is bounded by the number of
resting orders in the opposite ladder plus one; the loops are total
functions defined by well-founded recursion on that population. -/
theorem C9_addOrder_terminates (b : Book) (o : Order) (b' : Book)
    (ts : List Trade) (h : addOrder b o = some (b', ts)) :
    ts.length ≤ oppCount o.side b + 1 := by
  cases hty : o.order_type with
  | LIMIT =>
    rw [addOrder_limit b o hty] at h
    obtain ⟨p, b1, o1, hpr, hl⟩ := processLimitOrder_ts b _ b' ts h
    have hlen := limitLoop_length
      ({ o with status := OrderStatus.PENDING } : Order).side p b
      { o with status := OrderStatus.PENDING }
    rw [hl] at hlen
    simpa using hlen
  | MARKET =>
    rw [addOrder_market b o hty] at h
    simp only [Option.some.injEq] at h
    have hts : ts =
        (marketLoop o.side b { o with status := OrderStatus.PENDING }).2.2 := by
      have h2 := congrArg Prod.snd h
      simp only at h2
      rw [← h2, processMarketOrder_ts]
    rw [hts]
    exact marketLoop_length o.side b { o with status := OrderStatus.PENDING }

def oBuy105 : Order := fixOrder 8 .LIMIT .BUY (some 105) 10

/-- The single trade produced by submitting `oBuy105` to `bookAsk7`. -/
def tradeEx : Trade :=
  { id := 0, instrument_id := 1, buyer_order_id := 8, seller_order_id := 7,
    buyer_broker_id := 8, seller_broker_id := 7, price := 100, quantity := 10,
    execution_time := 0, status := TradeStatus.PENDING_SETTLEMENT,
    settlement_time := none }

/-- The book after submitting `oBuy105` to `bookAsk7`. -/
def bookFinal105 : Book :=
  { instrument_id := 1, bids := [], asks := [],
    orders :=
      [(7, { oSell7 with status := OrderStatus.FILLED,
                         remaining_quantity := 0 }),
       (8, { oBuy105 with status := OrderStatus.FILLED,
                          remaining_quantity := 0 })] }

theorem addOrder_bookAsk7_oBuy105 :
    addOrder bookAsk7 oBuy105 = some (bookFinal105, [tradeEx]) := by
  simp [addOrder, processLimitOrder, limitLoop, matchStep, bestOpp,
    getBestAsk, getBestBid, updateMatchedOrder, updateLadderAfterMatch,
    setOppLadder, oppLadder, Ladder.getLevel?, Ladder.setLevel,
    Ladder.removeKey, Ladder.push, Dir.insert, createTrade, pricesMatch,
    Book.new, fixOrder, oBuy105, oSell7, bookAsk7, bookFinal105, tradeEx]

/-- C9 witness: the one-trade submit against a one-order ladder respects
the bound 1 ≤ 1 + 1. -/
theorem C9_witness :
    ([tradeEx] : List Trade).length ≤ oppCount oBuy105.side bookAsk7 + 1 :=
  C9_addOrder_terminates bookAsk7 oBuy105 bookFinal105 [tradeEx]
    addOrder_bookAsk7_oBuy105

/-- C4: a MARKET order that still has positive remaining quantity when the
opposite ladder is exhausted (bestOpp of the final book is none) has all
trades generated so far returned unchanged — their total quantity equals
the filled portion — and is recorded in the directory with status REJECTED
and its residual remaining quantity; in particular, against an empty
opposite ladder it produces no trades and is recorded REJECTED with its
remaining quantity untouched (= original under the submit precondition). -/
theorem C4_market_rejected (b : Book) (o : Order)
    (hty : o.order_type = OrderType.MARKET) :
    (∀ b1 o1 ts,
      marketLoop o.side b { o with status := OrderStatus.PENDING } =
        (b1, o1, ts) →
      0 < o1.remaining_quantity →
      bestOpp o.side b1 = none ∧
      addOrder b o =
        some ({ b1 with orders := b1.orders.insert o1.id
                          { o1 with status := OrderStatus.REJECTED } }, ts) ∧
      o1.id = o.id ∧
      sumQty ts = o.remaining_quantity - o1.remaining_quantity) ∧
    (bestOpp o.side b = none →
      addOrder b o =
        some ({ b with orders := b.orders.insert o.id
                         { o with status := OrderStatus.REJECTED } }, [])) := by
  constructor
  · intro b1 o1 ts hl hpos
    have hexh := marketLoop_exhausted o.side b
      { o with status := OrderStatus.PENDING }
    rw [hl] at hexh
    have hcons := (marketLoop_conservation o.side b
      { o with status := OrderStatus.PENDING }).1
    rw [hl] at hcons
    have hcore := marketLoop_coreEq o.side b
      { o with status := OrderStatus.PENDING }
    rw [hl] at hcore
    simp only at hexh hcons hcore
    have hrem : ({ o with status := OrderStatus.PENDING } :
        Order).remaining_quantity = o.remaining_quantity := rfl
    refine ⟨(hexh hpos).1, ?_, hcore.1, by rw [hrem] at hcons; linarith⟩
    rw [addOrder_market b o hty,
      processMarketOrder_pos b _ b1 o1 ts hl hpos]
  · intro hnone
    rw [addOrder_market b o hty]
    have hl := marketLoop_none o.side b
      { o with status := OrderStatus.PENDING } hnone
    by_cases hq : (0 : Int) < o.remaining_quantity
    · rw [processMarketOrder_pos b { o with status := OrderStatus.PENDING } b
        { o with status := OrderStatus.REJECTED } [] hl hq]
    · rw [processMarketOrder_nonpos b { o with status := OrderStatus.PENDING }
        b { o with status := OrderStatus.REJECTED } [] hl hq]

def oMktBuy10 : Order := fixOrder 9 .MARKET .BUY none 10

/-- C4 witness: a MARKET BUY of 10 against an empty book yields no trades
and is recorded REJECTED with remaining 10. -/
theorem C4_witness :
    addOrder (Book.new 1) oMktBuy10 =
      some ({ Book.new 1 with
          orders := (Book.new 1).orders.insert oMktBuy10.id
            { oMktBuy10 with status := OrderStatus.REJECTED } }, []) :=
  (C4_market_rejected (Book.new 1) oMktBuy10 rfl).2 rfl

/-- The step relation of the matching loops: each link matches the current
best opposite (price, front order) through `matchStep`, emitting one trade
and chaining the successor book and incoming order. It records, for every
trade, the book and the maker it was generated against AT MATCH TIME. -/
inductive LoopSteps (side : OrderSide) :
    Book → Order → List Trade → Book → Order → Prop where
  | nil (b : Book) (o : Order) : LoopSteps side b o [] b o
  | step (b : Book) (o : Order) (bp : Int) (m : Order) (b' : Book)
      (o' : Order) (t : Trade) (ts : List Trade) (b'' : Book) (o'' : Order) :
      bestOpp side b = some (bp, m) →
      matchStep b o bp m side = (b', o', t) →
      LoopSteps side b' o' ts b'' o'' →
      LoopSteps side b o (t :: ts) b'' o''

/-- The trades of the limit loop are exactly a chain of genuine matching
steps starting from the entry book. -/
theorem limitLoop_steps (side : OrderSide) (price : Int) (b : Book)
    (order : Order) :
    LoopSteps side b order (limitLoop side price b order).2.2
      (limitLoop side price b order).1 (limitLoop side price b order).2.1 := by
  induction b, order using limitLoop.induct side price with
  | case1 b order bp m h hp b' order' t hs hz =>
    rw [limitLoop_last side price b order bp m b' order' t h hp hs hz]
    exact LoopSteps.step b order bp m b' order' t [] b' order'
      h hs (LoopSteps.nil b' order')
  | case2 b order bp m h hp b' order' t hs hz b'' order'' ts hrec ih =>
    rw [limitLoop_continue side price b order bp m b' b'' order' order'' t ts
      h hp hs hz hrec]
    rw [hrec] at ih
    simp only at ih ⊢
    exact LoopSteps.step b order bp m b' order' t ts b'' order'' h hs ih
  | case3 b order bp m h hp =>
    rw [limitLoop_nocross side price b order bp m h (by simpa using hp)]
    exact LoopSteps.nil b order
  | case4 b order h =>
    rw [limitLoop_none side price b order h]
    exact LoopSteps.nil b order

/-- The trades of the market loop are a chain of genuine matching steps. -/
theorem marketLoop_steps (side : OrderSide) (b : Book) (order : Order) :
    ∃ bf oe, LoopSteps side b order (marketLoop side b order).2.2 bf oe := by
  induction b, order using marketLoop.induct side with
  | case1 b order bp m h b' order' t hs hz =>
    rw [marketLoop_last side b order bp m b' order' t h hs hz]
    exact ⟨b', order', LoopSteps.step b order bp m b' order' t [] b' order'
      h hs (LoopSteps.nil b' order')⟩
  | case2 b order bp m h b' order' t hs hz b'' order'' ts hrec ih =>
    rw [marketLoop_continue side b order bp m b' b'' order' order'' t ts
      h hs hz hrec]
    rw [hrec] at ih
    simp only at ih ⊢
    obtain ⟨bf, oe, hsteps⟩ := ih
    exact ⟨bf, oe,
      LoopSteps.step b order bp m b' order' t ts bf oe h hs hsteps⟩
  | case3 b order h =>
    rw [marketLoop_none side b order h]
    exact ⟨b, order, LoopSteps.nil b order⟩

/-- C5: each matching step's trade is priced at the matched maker's ladder
price at match time — `t.price = bp` where `(bp, m)` is the best opposite
level-price/front-order pair the step matched, the trade's maker-side order
id is `m.id` and its taker-side id is the incoming's (so the price is tied
to the trade's OWN maker, equalling that maker's `price` field on a
well-formed level) — every chain of such steps prices every trade this way
at its own match-time book, and the trades returned by `add_order` are
exactly such a chain from the entry book. -/
theorem C5_trade_price_maker :
    (∀ b order bp m side b' order' t,
      bestOpp side b = some (bp, m) →
      matchStep b order bp m side = (b', order', t) →
      t.price = bp ∧
      (m.price = some bp → some t.price = m.price) ∧
      (order.side = OrderSide.BUY →
        t.seller_order_id = m.id ∧ t.buyer_order_id = order.id) ∧
      (order.side = OrderSide.SELL →
        t.buyer_order_id = m.id ∧ t.seller_order_id = order.id)) ∧
    (∀ side b o ts bf oe, LoopSteps side b o ts bf oe →
      ∀ t ∈ ts, ∃ b0 o0 bp m b1 o1,
        bestOpp side b0 = some (bp, m) ∧
        matchStep b0 o0 bp m side = (b1, o1, t) ∧ t.price = bp) ∧
    (∀ b o b' ts, addOrder b o = some (b', ts) →
      ∃ bf oe, LoopSteps o.side b
        { o with status := OrderStatus.PENDING } ts bf oe) := by
  refine ⟨?_, ?_, ?_⟩
  · intro b order bp m side b' order' t hbest hstep
    obtain ⟨hb', ho', ht⟩ := matchStep_inv b order bp m side b' order' t hstep
    refine ⟨by rw [ht]; rfl, ?_, ?_, ?_⟩
    · intro hm
      rw [ht, hm]
      rfl
    · intro hside
      rw [ht]
      exact ⟨by simp [createTrade, hside], by simp [createTrade, hside]⟩
    · intro hside
      rw [ht]
      exact ⟨by simp [createTrade, hside], by simp [createTrade, hside]⟩
  · intro side b o ts bf oe hsteps
    induction hsteps with
    | nil b o => simp
    | step b o bp m b' o' t ts b'' o'' hbest hstep hrest ih =>
      intro t' ht'
      rcases List.mem_cons.mp ht' with h1 | h1
      · subst h1
        obtain ⟨hb', ho', ht⟩ := matchStep_inv b o bp m side b' o' t' hstep
        exact ⟨b, o, bp, m, b', o', hbest, hstep, by rw [ht]; rfl⟩
      · exact ih t' h1
  · intro b o b' ts h
    cases hty : o.order_type with
    | LIMIT =>
      rw [addOrder_limit b o hty] at h
      obtain ⟨p, b1, o1, hpr, hl⟩ := processLimitOrder_ts b _ b' ts h
      have hsteps := limitLoop_steps
        ({ o with status := OrderStatus.PENDING } : Order).side p b
        { o with status := OrderStatus.PENDING }
      rw [hl] at hsteps
      simp only at hsteps
      rw [hty] at hsteps
      exact ⟨b1, o1, hsteps⟩
    | MARKET =>
      rw [addOrder_market b o hty] at h
      simp only [Option.some.injEq] at h
      have hts : ts =
          (marketLoop o.side b
            { o with status := OrderStatus.PENDING }).2.2 := by
        have h2 := congrArg Prod.snd h
        simp only at h2
        rw [← h2, processMarketOrder_ts]
      obtain ⟨bf, oe, hsteps⟩ := marketLoop_steps o.side b
        { o with status := OrderStatus.PENDING }
      rw [← hts] at hsteps
      rw [hty] at hsteps
      exact ⟨bf, oe, hsteps⟩

/-- C5 witness: the spec example — a LIMIT BUY at 105 against the ask
resting at 100: the step trade is priced at the maker's level 100, and the
submit's single trade is a genuine step chain from the entry book. -/
theorem C5_witness :
    (matchStep bookAsk7 oBuy105 100 oSell7 OrderSide.BUY).2.2.price = 100 ∧
    ∃ bf oe, LoopSteps oBuy105.side bookAsk7
      { oBuy105 with status := OrderStatus.PENDING } [tradeEx] bf oe :=
  ⟨(C5_trade_price_maker.1 bookAsk7 oBuy105 100 oSell7 OrderSide.BUY
      _ _ _ rfl rfl).1,
   C5_trade_price_maker.2.2 bookAsk7 oBuy105 bookFinal105 [tradeEx]
     addOrder_bookAsk7_oBuy105⟩

/-! Membership lemmas for ladder operations. -/

theorem ordersOf_setLevel_sub (l : Ladder) (p : Int) (os : List Order) :
    ∀ x ∈ Ladder.ordersOf (Ladder.setLevel l p os),
      x ∈ Ladder.ordersOf l ∨ x ∈ os := by
  induction l with
  | nil => simp [Ladder.setLevel, Ladder.ordersOf]
  | cons kv t ih =>
    obtain ⟨q, v⟩ := kv
    by_cases h : q = p
    · intro x hx
      simp only [Ladder.setLevel, if_pos h, Ladder.ordersOf,
        List.flatMap_cons, List.mem_append] at hx
      rcases hx with hx | hx
      · exact Or.inr hx
      · exact Or.inl (by
          simp only [Ladder.ordersOf, List.flatMap_cons, List.mem_append]
          exact Or.inr hx)
    · intro x hx
      simp only [Ladder.setLevel, if_neg h, Ladder.ordersOf,
        List.flatMap_cons, List.mem_append] at hx
      rcases hx with hx | hx
      · exact Or.inl (by
          simp only [Ladder.ordersOf, List.flatMap_cons, List.mem_append]
          exact Or.inl hx)
      · rcases ih x hx with h1 | h1
        · exact Or.inl (by
            simp only [Ladder.ordersOf, List.flatMap_cons, List.mem_append]
            exact Or.inr h1)
        · exact Or.inr h1

theorem ordersOf_removeKey_sub (l : Ladder) (p : Int) :
    ∀ x ∈ Ladder.ordersOf (Ladder.removeKey l p),
      x ∈ Ladder.ordersOf l := by
  induction l with
  | nil => simp [Ladder.removeKey]
  | cons kv t ih =>
    obtain ⟨q, v⟩ := kv
    by_cases h : q = p
    · intro x hx
      simp only [Ladder.removeKey, if_pos h] at hx
      simp only [Ladder.ordersOf, List.flatMap_cons, List.mem_append]
      exact Or.inr hx
    · intro x hx
      simp only [Ladder.removeKey, if_neg h, Ladder.ordersOf,
        List.flatMap_cons, List.mem_append] at hx
      simp only [Ladder.ordersOf, List.flatMap_cons, List.mem_append]
      rcases hx with hx | hx
      · exact Or.inl hx
      · exact Or.inr (ih x hx)

theorem ordersOf_push (l : Ladder) (p : Int) (o : Order) :
    ∀ x ∈ Ladder.ordersOf (Ladder.push l p o),
      x ∈ Ladder.ordersOf l ∨ x = o := by
  induction l with
  | nil => simp [Ladder.push, Ladder.ordersOf]
  | cons kv t ih =>
    obtain ⟨q, v⟩ := kv
    intro x hx
    by_cases h1 : p < q
    · simp only [Ladder.push, if_pos h1, Ladder.ordersOf, List.flatMap_cons,
        List.mem_append, List.mem_singleton] at hx
      rcases hx with hx | hx | hx
      · exact Or.inr hx
      · exact Or.inl (by
          simp only [Ladder.ordersOf, List.flatMap_cons, List.mem_append]
          exact Or.inl hx)
      · exact Or.inl (by
          simp only [Ladder.ordersOf, List.flatMap_cons, List.mem_append]
          exact Or.inr hx)
    · by_cases h2 : p = q
      · simp only [Ladder.push, if_neg h1, if_pos h2, Ladder.ordersOf,
          List.flatMap_cons, List.mem_append, List.mem_singleton] at hx
        rcases hx with (hx | hx) | hx
        · exact Or.inl (by
            simp only [Ladder.ordersOf, List.flatMap_cons, List.mem_append]
            exact Or.inl hx)
        · exact Or.inr hx
        · exact Or.inl (by
            simp only [Ladder.ordersOf, List.flatMap_cons, List.mem_append]
            exact Or.inr hx)
      · simp only [Ladder.push, if_neg h1, if_neg h2, Ladder.ordersOf,
          List.flatMap_cons, List.mem_append] at hx
        rcases hx with hx | hx
        · exact Or.inl (by
            simp only [Ladder.ordersOf, List.flatMap_cons, List.mem_append]
            exact Or.inl hx)
        · rcases ih x hx with h3 | h3
          · exact Or.inl (by
              simp only [Ladder.ordersOf, List.flatMap_cons, List.mem_append]
              exact Or.inr h3)
          · exact Or.inr h3

theorem getLevel?_ordersOf (l : Ladder) (p : Int) (os : List Order)
    (h : l.getLevel? p = some os) : ∀ x ∈ os, x ∈ Ladder.ordersOf l := by
  induction l with
  | nil => simp [Ladder.getLevel?] at h
  | cons kv t ih =>
    obtain ⟨q, v⟩ := kv
    by_cases hq : q = p
    · simp only [Ladder.getLevel?, if_pos hq, Option.some.injEq] at h
      subst h
      intro x hx
      simp only [Ladder.ordersOf, List.flatMap_cons, List.mem_append]
      exact Or.inl hx
    · simp only [Ladder.getLevel?, if_neg hq] at h
      intro x hx
      simp only [Ladder.ordersOf, List.flatMap_cons, List.mem_append]
      exact Or.inr (ih h x hx)

theorem removeById_sub (os : List Order) (oid : Nat) (c : Order)
    (os' : List Order) (h : removeById os oid = some (c, os')) :
    ∀ x ∈ os', x ∈ os := by
  induction os generalizing c os' with
  | nil => simp [removeById] at h
  | cons a t ih =>
    by_cases ha : a.id = oid
    · simp only [removeById, if_pos ha, Option.some.injEq,
        Prod.mk.injEq] at h
      intro x hx
      rw [← h.2] at hx
      exact List.mem_cons_of_mem _ hx
    · simp only [removeById, if_neg ha] at h
      rcases hr : removeById t oid with _ | ⟨c1, t1⟩
      · rw [hr] at h; simp at h
      · rw [hr] at h
        simp only [Option.some.injEq, Prod.mk.injEq] at h
        intro x hx
        rw [← h.2] at hx
        rcases List.mem_cons.mp hx with hx | hx
        · exact List.mem_cons.mpr (Or.inl hx)
        · exact List.mem_cons_of_mem _ (ih c1 t1 hr x hx)

/-! Reachable book states and the limit-orders-only invariant. -/

/-- The `submit` preconditions of the specification (§4.1). -/
def SubmitPre (o : Order) : Prop :=
  0 < o.original_quantity ∧ o.remaining_quantity = o.original_quantity ∧
  (o.order_type = OrderType.LIMIT → ∃ p, o.price = some p ∧ 0 < p) ∧
  (o.order_type = OrderType.MARKET → o.price = none)

/-- Book states reachable from `new` through valid submits and cancels. -/
inductive Reachable : Book → Prop where
  | new (iid : Nat) : Reachable (Book.new iid)
  | add (b : Book) (o : Order) (b' : Book) (ts : List Trade) :
      Reachable b → SubmitPre o → addOrder b o = some (b', ts) →
      Reachable b'
  | cancel (b : Book) (oid : Nat) (r : Option Order) (b' : Book) :
      Reachable b → cancelOrder b oid = some (r, b') → Reachable b'

/-- Every order of the ladder is a LIMIT order carrying a price. -/
def ladderLimit (l : Ladder) : Prop :=
  ∀ o ∈ Ladder.ordersOf l,
    o.order_type = OrderType.LIMIT ∧ o.price.isSome

/-- Every non-terminal directory entry is a LIMIT order carrying a price. -/
def DirLimit (b : Book) : Prop :=
  ∀ k o, b.orders.get? k = some o →
    (o.status = OrderStatus.PENDING ∨ o.status = OrderStatus.PARTIAL) →
    o.order_type = OrderType.LIMIT ∧ o.price.isSome

/-- The invariant behind the safety of `cancel_order`'s price unwrap. -/
def InvL (b : Book) : Prop :=
  ladderLimit b.bids ∧ ladderLimit b.asks ∧ DirLimit b

theorem updateMatched_bids (b : Book) (m : Order) (tq p : Int) :
    ((updateMatchedOrder b m tq p OrderSide.BUY).bids = b.bids) ∧
    ((updateMatchedOrder b m tq p OrderSide.SELL).bids =
      updateLadderAfterMatch b.bids p tq) := ⟨rfl, rfl⟩

theorem updateMatched_asks (b : Book) (m : Order) (tq p : Int) :
    ((updateMatchedOrder b m tq p OrderSide.SELL).asks = b.asks) ∧
    ((updateMatchedOrder b m tq p OrderSide.BUY).asks =
      updateLadderAfterMatch b.asks p tq) := ⟨rfl, rfl⟩

theorem updateMatched_orders (b : Book) (m : Order) (tq p : Int)
    (side : OrderSide) :
    (updateMatchedOrder b m tq p side).orders =
      b.orders.insert m.id
        { m with remaining_quantity := m.remaining_quantity - tq,
                 status := if m.remaining_quantity - tq = 0
                   then OrderStatus.FILLED else OrderStatus.PARTIAL } := by
  cases side <;> rfl

theorem ladderLimit_update_head (bp tq : Int) (m : Order)
    (rest : List Order) (tl : Ladder)
    (hl : ladderLimit ((bp, m :: rest) :: tl)) :
    ladderLimit (updateLadderAfterMatch ((bp, m :: rest) :: tl) bp tq) := by
  rw [updateLadder_shape]
  have hm := hl m (by
    simp [Ladder.ordersOf, List.flatMap_cons])
  by_cases he : m.remaining_quantity = tq
  · rw [if_pos he]
    by_cases hr : rest = []
    · rw [if_pos hr]
      intro o ho
      exact hl o (by
        simp only [Ladder.ordersOf, List.flatMap_cons, List.mem_append]
        exact Or.inr ho)
    · rw [if_neg hr]
      intro o ho
      simp only [Ladder.ordersOf, List.flatMap_cons, List.mem_append] at ho
      refine hl o ?_
      simp only [Ladder.ordersOf, List.flatMap_cons, List.mem_append,
        List.mem_cons]
      rcases ho with ho | ho
      · exact Or.inl (Or.inr ho)
      · exact Or.inr ho
  · rw [if_neg he]
    intro o ho
    simp only [Ladder.ordersOf, List.flatMap_cons, List.mem_append,
      List.mem_cons] at ho
    rcases ho with (ho | ho) | ho
    · subst ho
      exact ⟨hm.1, hm.2⟩
    · refine hl o ?_
      simp only [Ladder.ordersOf, List.flatMap_cons, List.mem_append,
        List.mem_cons]
      exact Or.inl (Or.inr ho)
    · refine hl o ?_
      simp only [Ladder.ordersOf, List.flatMap_cons, List.mem_append]
      exact Or.inr ho

theorem matchStep_InvL (b : Book) (order : Order) (bp : Int) (m : Order)
    (side : OrderSide) (h : bestOpp side b = some (bp, m))
    (hb : InvL b) : InvL (matchStep b order bp m side).1 := by
  obtain ⟨rest, tl, hshape⟩ := bestOpp_shape side b bp m h
  obtain ⟨hbids, hasks, hdir⟩ := hb
  have hm : m.order_type = OrderType.LIMIT ∧ m.price.isSome := by
    cases side
    · exact hasks m (by
        simp only [oppLadder] at hshape
        rw [hshape]
        simp [Ladder.ordersOf, List.flatMap_cons])
    · exact hbids m (by
        simp only [oppLadder] at hshape
        rw [hshape]
        simp [Ladder.ordersOf, List.flatMap_cons])
  have hdir' : DirLimit (matchStep b order bp m side).1 := by
    intro k o hget hst
    rw [matchStep, updateMatched_orders] at hget
    by_cases hk : k = m.id
    · subst hk
      rw [dir_get_insert_self] at hget
      obtain rfl := Option.some.injEq _ _ |>.mp hget
      exact ⟨hm.1, hm.2⟩
    · rw [dir_get_insert_ne _ _ _ _ hk] at hget
      exact hdir k o hget hst
  cases side
  case BUY =>
    refine ⟨?_, ?_, hdir'⟩
    · rw [matchStep, (updateMatched_bids b m _ bp).1]
      exact hbids
    · rw [matchStep, (updateMatched_asks b m _ bp).2]
      simp only [oppLadder] at hshape
      rw [hshape]
      exact ladderLimit_update_head bp _ m rest tl (hshape ▸ hasks)
  case SELL =>
    refine ⟨?_, ?_, hdir'⟩
    · rw [matchStep, (updateMatched_bids b m _ bp).2]
      simp only [oppLadder] at hshape
      rw [hshape]
      exact ladderLimit_update_head bp _ m rest tl (hshape ▸ hbids)
    · rw [matchStep, (updateMatched_asks b m _ bp).1]
      exact hasks

theorem limitLoop_InvL (side : OrderSide) (price : Int) (b : Book)
    (order : Order) (hb : InvL b) : InvL (limitLoop side price b order).1 := by
  induction b, order using limitLoop.induct side price with
  | case1 b order bp m h hp b' order' t hs hz =>
    rw [limitLoop_last side price b order bp m b' order' t h hp hs hz]
    have := matchStep_InvL b order bp m side h hb
    rw [hs] at this
    exact this
  | case2 b order bp m h hp b' order' t hs hz b'' order'' ts hrec ih =>
    rw [limitLoop_continue side price b order bp m b' b'' order' order'' t ts
      h hp hs hz hrec]
    have hb' := matchStep_InvL b order bp m side h hb
    rw [hs] at hb'
    have := ih hb'
    rw [hrec] at this
    exact this
  | case3 b order bp m h hp =>
    rw [limitLoop_nocross side price b order bp m h (by simpa using hp)]
    exact hb
  | case4 b order h =>
    rw [limitLoop_none side price b order h]
    exact hb

theorem marketLoop_InvL (side : OrderSide) (b : Book) (order : Order)
    (hb : InvL b) : InvL (marketLoop side b order).1 := by
  induction b, order using marketLoop.induct side with
  | case1 b order bp m h b' order' t hs hz =>
    rw [marketLoop_last side b order bp m b' order' t h hs hz]
    have := matchStep_InvL b order bp m side h hb
    rw [hs] at this
    exact this
  | case2 b order bp m h b' order' t hs hz b'' order'' ts hrec ih =>
    rw [marketLoop_continue side b order bp m b' b'' order' order'' t ts
      h hs hz hrec]
    have hb' := matchStep_InvL b order bp m side h hb
    rw [hs] at hb'
    have := ih hb'
    rw [hrec] at this
    exact this
  | case3 b order h =>
    rw [marketLoop_none side b order h]
    exact hb

theorem ladderLimit_push (l : Ladder) (p : Int) (o : Order)
    (hl : ladderLimit l)
    (ho : o.order_type = OrderType.LIMIT ∧ o.price.isSome) :
    ladderLimit (l.push p o) := by
  intro x hx
  rcases ordersOf_push l p o x hx with h1 | h1
  · exact hl x h1
  · subst h1; exact ho

theorem addOrder_InvL (b : Book) (o : Order) (b' : Book) (ts : List Trade)
    (hb : InvL b) (h : addOrder b o = some (b', ts)) : InvL b' := by
  cases hty : o.order_type with
  | LIMIT =>
    rw [addOrder_limit b o hty] at h
    obtain ⟨p, b1, o1, hpr, hl⟩ := processLimitOrder_ts b _ b' ts h
    rw [processLimitOrder_eq b _ p b1 o1 ts hpr hl] at h
    simp only [Option.some.injEq, Prod.mk.injEq] at h
    obtain ⟨hb'', -⟩ := h
    have hinv1 : InvL b1 := by
      have := limitLoop_InvL ({ o with status := OrderStatus.PENDING} :
        Order).side p b { o with status := OrderStatus.PENDING} hb
      rw [hl] at this
      exact this
    have hcore := limitLoop_coreEq
      ({ o with status := OrderStatus.PENDING} : Order).side p b
      { o with status := OrderStatus.PENDING}
    rw [hl] at hcore
    simp only at hcore
    have ho1 : o1.order_type = OrderType.LIMIT ∧ o1.price.isSome := by
      refine ⟨?_, ?_⟩
      · rw [hcore.2.2.2.1]; exact hty
      · rw [hcore.2.2.2.2.2.1]
        show (({ o with status := OrderStatus.PENDING} : Order).price).isSome
        simp only
        rw [hpr]
        rfl
    obtain ⟨hbids1, hasks1, hdir1⟩ := hinv1
    have hdir2 : ∀ (d : Dir), (∀ k x, d.get? k = some x →
        (x.status = OrderStatus.PENDING ∨ x.status = OrderStatus.PARTIAL) →
        x.order_type = OrderType.LIMIT ∧ x.price.isSome) →
        ∀ k x, (d.insert o1.id o1).get? k = some x →
        (x.status = OrderStatus.PENDING ∨ x.status = OrderStatus.PARTIAL) →
        x.order_type = OrderType.LIMIT ∧ x.price.isSome := by
      intro d hd k x hget hst
      by_cases hk : k = o1.id
      · subst hk
        rw [dir_get_insert_self] at hget
        obtain rfl := Option.some.injEq _ _ |>.mp hget
        exact ho1
      · rw [dir_get_insert_ne _ _ _ _ hk] at hget
        exact hd k x hget hst
    rw [← hb'']
    by_cases hq : 0 < o1.remaining_quantity
    · rw [if_pos hq]
      cases hside : ({ o with status := OrderStatus.PENDING} : Order).side with
      | BUY =>
        exact ⟨ladderLimit_push b1.bids p o1 hbids1 ho1, hasks1,
          fun k x hget hst => hdir2 b1.orders hdir1 k x hget hst⟩
      | SELL =>
        exact ⟨hbids1, ladderLimit_push b1.asks p o1 hasks1 ho1,
          fun k x hget hst => hdir2 b1.orders hdir1 k x hget hst⟩
    · rw [if_neg hq]
      exact ⟨hbids1, hasks1,
        fun k x hget hst => hdir2 b1.orders hdir1 k x hget hst⟩
  | MARKET =>
    rw [addOrder_market b o hty] at h
    simp only [Option.some.injEq] at h
    rcases hl : marketLoop ({ o with status := OrderStatus.PENDING} :
        Order).side b { o with status := OrderStatus.PENDING}
      with ⟨b1, o1, ts1⟩
    have hinv1 : InvL b1 := by
      have := marketLoop_InvL ({ o with status := OrderStatus.PENDING} :
        Order).side b { o with status := OrderStatus.PENDING} hb
      rw [hl] at this
      exact this
    have hfs := marketLoop_final_status
      ({ o with status := OrderStatus.PENDING} : Order).side b
      { o with status := OrderStatus.PENDING}
    rw [hl] at hfs
    simp only at hfs
    obtain ⟨hbids1, hasks1, hdir1⟩ := hinv1
    by_cases hq : 0 < o1.remaining_quantity
    · rw [processMarketOrder_pos b _ b1 o1 ts1 hl hq] at h
      simp only [Prod.mk.injEq] at h
      rw [← h.1]
      refine ⟨hbids1, hasks1, ?_⟩
      intro k x hget hst
      by_cases hk : k = o1.id
      · subst hk
        rw [show ({ o1 with status := OrderStatus.REJECTED} : Order).id =
          o1.id from rfl, dir_get_insert_self] at hget
        obtain rfl := Option.some.injEq _ _ |>.mp hget
        rcases hst with hst | hst <;> simp at hst
      · rw [dir_get_insert_ne _ _ _ _ hk] at hget
        exact hdir1 k x hget hst
    · rw [processMarketOrder_nonpos b _ b1 o1 ts1 hl hq] at h
      simp only [Prod.mk.injEq] at h
      rw [← h.1]
      refine ⟨hbids1, hasks1, ?_⟩
      intro k x hget hst
      by_cases hk : k = o1.id
      · subst hk
        rw [dir_get_insert_self] at hget
        obtain rfl := Option.some.injEq _ _ |>.mp hget
        rcases hfs with hfs | hfs <;> rcases hst with hst | hst <;>
          rw [hfs] at hst <;> simp at hst
      · rw [dir_get_insert_ne _ _ _ _ hk] at hget
        exact hdir1 k x hget hst

theorem cancelOrder_none_book (b : Book) (oid : Nat) (b' : Book)
    (h : cancelOrder b oid = some (none, b')) : b' = b := by
  unfold cancelOrder at h
  split at h
  · simp only [Option.some.injEq, Prod.mk.injEq] at h
    exact h.2.symm
  · split at h
    · simp only [Option.some.injEq, Prod.mk.injEq] at h
      exact h.2.symm
    · split at h
      · exact absurd h (by simp)
      · split at h
        · simp only [Option.some.injEq, Prod.mk.injEq] at h
          exact h.2.symm
        · split at h
          · simp only [Option.some.injEq, Prod.mk.injEq] at h
            exact h.2.symm
          · simp at h

theorem cancelOrder_success_book (b : Book) (oid : Nat) (r : Order)
    (b' : Book) (h : cancelOrder b oid = some (some r, b')) :
    ∃ order price os cancelled os',
      b.orders.get? oid = some order ∧
      order.price = some price ∧
      (sideLadder order.side b).getLevel? price = some os ∧
      removeById os oid = some (cancelled, os') ∧
      r = { cancelled with status := OrderStatus.CANCELLED } ∧
      b' = { setSideLadder order.side b
          (if os' = [] then (sideLadder order.side b).removeKey price
           else (sideLadder order.side b).setLevel price os') with
        orders := (setSideLadder order.side b
          (if os' = [] then (sideLadder order.side b).removeKey price
           else (sideLadder order.side b).setLevel price os')).orders.insert
            oid { cancelled with status := OrderStatus.CANCELLED } } := by
  unfold cancelOrder at h
  split at h
  · simp at h
  · rename_i order hget
    split at h
    · simp at h
    · split at h
      · exact absurd h (by simp)
      · rename_i price hpr
        split at h
        · simp at h
        · rename_i os hos
          split at h
          · simp at h
          · rename_i pr cancelled os' hrm
            simp only [Option.some.injEq, Prod.mk.injEq] at h
            exact ⟨order, price, os, cancelled, os', hget, hpr, hos, hrm,
              h.1.symm, h.2.symm⟩

theorem cancelOrder_InvL (b : Book) (oid : Nat) (r : Option Order)
    (b' : Book) (hb : InvL b) (h : cancelOrder b oid = some (r, b')) :
    InvL b' := by
  rcases r with _ | r
  · rw [cancelOrder_none_book b oid b' h]
    exact hb
  · obtain ⟨order, price, os, cancelled, os', hget, hpr, hos, hrm, hr, hb'⟩ :=
      cancelOrder_success_book b oid r b' h
    obtain ⟨hbids, hasks, hdir⟩ := hb
    have hside_limit : ladderLimit (sideLadder order.side b) := by
      cases order.side
      · exact hbids
      · exact hasks
    have hos_sub : ∀ x ∈ os', x ∈ Ladder.ordersOf (sideLadder order.side b) :=
      fun x hx => getLevel?_ordersOf _ _ _ hos x
        (removeById_sub os oid cancelled os' hrm x hx)
    have hladder : ladderLimit
        (if os' = [] then (sideLadder order.side b).removeKey price
         else (sideLadder order.side b).setLevel price os') := by
      split
      · intro x hx
        exact hside_limit x (ordersOf_removeKey_sub _ _ x hx)
      · intro x hx
        rcases ordersOf_setLevel_sub _ _ _ x hx with h1 | h1
        · exact hside_limit x h1
        · exact hside_limit x (hos_sub x h1)
    have hdir' : ∀ (d : Dir), (∀ k x, d.get? k = some x →
        (x.status = OrderStatus.PENDING ∨ x.status = OrderStatus.PARTIAL) →
        x.order_type = OrderType.LIMIT ∧ x.price.isSome) →
        ∀ k x, (d.insert oid
            { cancelled with status := OrderStatus.CANCELLED }).get? k =
          some x →
        (x.status = OrderStatus.PENDING ∨ x.status = OrderStatus.PARTIAL) →
        x.order_type = OrderType.LIMIT ∧ x.price.isSome := by
      intro d hd k x hget2 hst
      by_cases hk : k = oid
      · subst hk
        rw [dir_get_insert_self] at hget2
        obtain rfl := Option.some.injEq _ _ |>.mp hget2
        rcases hst with hst | hst <;> simp at hst
      · rw [dir_get_insert_ne _ _ _ _ hk] at hget2
        exact hd k x hget2 hst
    subst hb'
    cases hsd : order.side with
    | BUY =>
      rw [hsd] at hladder
      exact ⟨hladder, hasks, fun k x hget2 hst =>
        hdir' b.orders hdir k x hget2 hst⟩
    | SELL =>
      rw [hsd] at hladder
      exact ⟨hbids, hladder, fun k x hget2 hst =>
        hdir' b.orders hdir k x hget2 hst⟩

theorem reachable_InvL (b : Book) (hb : Reachable b) : InvL b := by
  induction hb with
  | new iid =>
    refine ⟨?_, ?_, ?_⟩
    · intro o ho
      simp [Book.new, Ladder.ordersOf] at ho
    · intro o ho
      simp [Book.new, Ladder.ordersOf] at ho
    · intro k o hget
      simp [Book.new, Dir.get?] at hget
  | add b o b' ts hr hpre hadd ih => exact addOrder_InvL b o b' ts ih hadd
  | cancel b oid r b' hr hc ih => exact cancelOrder_InvL b oid r b' ih hc

theorem cancelOrder_isSome (b : Book) (hd : DirLimit b) (oid : Nat) :
    (cancelOrder b oid).isSome := by
  unfold cancelOrder
  split
  · simp
  · rename_i order hget
    split
    · simp
    · rename_i hst
      have hnt : order.status = OrderStatus.PENDING ∨
          order.status = OrderStatus.PARTIAL := by
        by_cases h1 : order.status = OrderStatus.PENDING
        · exact Or.inl h1
        · by_cases h2 : order.status = OrderStatus.PARTIAL
          · exact Or.inr h2
          · exact absurd ⟨h1, h2⟩ hst
      obtain ⟨-, hpr⟩ := hd oid order hget hnt
      obtain ⟨p, hp⟩ := Option.isSome_iff_exists.mp hpr
      rw [hp]
      split
      · rename_i heq
        exact absurd heq (by simp)
      · split
        · simp
        · split <;> simp

/-- C10: in every book reachable via `new`, valid submits and cancels,
every directory entry with status PENDING or PARTIAL is a LIMIT order whose
price is present (market orders always end FILLED or REJECTED), so the
`expect("Order should have a price")` unwrap inside `cancel_order` is
unreachable: `cancel_order` never panics. -/
theorem C10_cancel_never_panics (b : Book) (hb : Reachable b) :
    (∀ k o, b.orders.get? k = some o →
      (o.status = OrderStatus.PENDING ∨ o.status = OrderStatus.PARTIAL) →
      o.order_type = OrderType.LIMIT ∧ o.price.isSome) ∧
    ∀ oid, (cancelOrder b oid).isSome := by
  have hinv := reachable_InvL b hb
  exact ⟨hinv.2.2, fun oid => cancelOrder_isSome b hinv.2.2 oid⟩

/-- C10 witness: the fresh book is reachable and cancelling any of ids
0..2 on it does not panic. -/
theorem C10_witness :
    ((cancelOrder (Book.new 1) 0).isSome ∧
     (cancelOrder (Book.new 1) 1).isSome) :=
  ⟨(C10_cancel_never_panics (Book.new 1) (Reachable.new 1)).2 0,
   (C10_cancel_never_panics (Book.new 1) (Reachable.new 1)).2 1⟩

/-! The directory-completeness invariant (C8) and its machinery. -/

/-- All resting orders of the book, bids first. -/
def allLadderOrders (b : Book) : List Order :=
  Ladder.ordersOf b.bids ++ Ladder.ordersOf b.asks

/-- The resting orders' ids. -/
def ladderIds (b : Book) : List Nat := (allLadderOrders b).map Order.id

/-- Directory completeness: every resting order has a directory entry with
identical content, a non-terminal status and positive remaining quantity —
plus the id-uniqueness side condition that makes it preservable. -/
def Inv8 (b : Book) : Prop :=
  (∀ o ∈ allLadderOrders b,
      b.orders.get? o.id = some o ∧
      (o.status = OrderStatus.PENDING ∨ o.status = OrderStatus.PARTIAL) ∧
      0 < o.remaining_quantity) ∧
  (ladderIds b).Nodup

theorem ordersOf_cons (p : Int) (os : List Order) (t : Ladder) :
    Ladder.ordersOf ((p, os) :: t) = os ++ Ladder.ordersOf t := rfl

/-- Effect of one match on the opposite ladder's order list. -/
theorem ordersOf_updateLadder (bp tq : Int) (m : Order) (rest : List Order)
    (tl : Ladder) :
    Ladder.ordersOf (updateLadderAfterMatch ((bp, m :: rest) :: tl) bp tq) =
      if m.remaining_quantity = tq then rest ++ Ladder.ordersOf tl
      else ({ m with remaining_quantity := m.remaining_quantity - tq,
                     status := OrderStatus.PARTIAL } :: rest) ++
        Ladder.ordersOf tl := by
  rw [updateLadder_shape]
  by_cases he : m.remaining_quantity = tq
  · rw [if_pos he, if_pos he]
    by_cases hr : rest = []
    · rw [if_pos hr, hr]
      rfl
    · rw [if_neg hr]
      rfl
  · rw [if_neg he, if_neg he]
    rfl

/-- The matched book's two ladders, by incoming side. -/
theorem matchStep_ladders (b : Book) (order : Order) (bp : Int) (m : Order) :
    ((matchStep b order bp m OrderSide.BUY).1.bids = b.bids ∧
     (matchStep b order bp m OrderSide.BUY).1.asks =
       updateLadderAfterMatch b.asks bp
         (min order.remaining_quantity m.remaining_quantity)) ∧
    ((matchStep b order bp m OrderSide.SELL).1.asks = b.asks ∧
     (matchStep b order bp m OrderSide.SELL).1.bids =
       updateLadderAfterMatch b.bids bp
         (min order.remaining_quantity m.remaining_quantity)) :=
  ⟨⟨rfl, rfl⟩, ⟨rfl, rfl⟩⟩

theorem matchStep_orders (b : Book) (order : Order) (bp : Int) (m : Order)
    (side : OrderSide) :
    (matchStep b order bp m side).1.orders =
      b.orders.insert m.id
        { m with
            remaining_quantity :=
              m.remaining_quantity -
                min order.remaining_quantity m.remaining_quantity,
            status :=
              if m.remaining_quantity -
                  min order.remaining_quantity m.remaining_quantity = 0
              then OrderStatus.FILLED else OrderStatus.PARTIAL } := by
  cases side <;> rfl

theorem nodup_map_ne {l : List Order} (hn : (l.map Order.id).Nodup)
    {x : Order} {ys zs : List Order} (hsplit : l = ys ++ x :: zs)
    {o : Order} (ho : o ∈ ys ∨ o ∈ zs) : o.id ≠ x.id := by
  subst hsplit
  rw [List.map_append, List.map_cons] at hn
  obtain ⟨h1, h2, hdisj⟩ := List.nodup_append.mp hn
  obtain ⟨hx, h3⟩ := List.nodup_cons.mp h2
  rcases ho with ho | ho
  · intro he
    exact hdisj (List.mem_map_of_mem Order.id ho)
      (by rw [he]; exact List.mem_cons_self _ _)
  · intro he
    exact hx (he ▸ List.mem_map_of_mem Order.id ho)

theorem Inv8_after_match (b b' : Book) (m : Order) (tq : Int)
    (pre suf : List Order)
    (hb : Inv8 b)
    (hsplit : allLadderOrders b = pre ++ m :: suf)
    (hdir : b'.orders = b.orders.insert m.id
      { m with remaining_quantity := m.remaining_quantity - tq,
               status := if m.remaining_quantity - tq = 0
                 then OrderStatus.FILLED else OrderStatus.PARTIAL })
    (htq : tq ≤ m.remaining_quantity)
    (hall : allLadderOrders b' = pre ++ suf ∨
      (m.remaining_quantity ≠ tq ∧
       allLadderOrders b' = pre ++
         { m with remaining_quantity := m.remaining_quantity - tq,
                  status := OrderStatus.PARTIAL } :: suf)) :
    Inv8 b' ∧ ∀ i ∈ ladderIds b', i ∈ ladderIds b := by
  obtain ⟨hid, hnd⟩ := hb
  have hids : ∀ i ∈ ladderIds b', i ∈ ladderIds b := by
    intro i hi
    unfold ladderIds at hi ⊢
    rw [hsplit]
    rcases hall with hall | ⟨hne, hall⟩
    · rw [hall] at hi
      simp only [List.map_append, List.mem_append] at hi ⊢
      rcases hi with hi | hi
      · exact Or.inl hi
      · refine Or.inr ?_
        simp only [List.map_cons, List.mem_cons]
        exact Or.inr hi
    · rw [hall] at hi
      simp only [List.map_append, List.map_cons, List.mem_append,
        List.mem_cons] at hi ⊢
      rcases hi with hi | hi | hi
      · exact Or.inl hi
      · exact Or.inr (Or.inl hi)
      · exact Or.inr (Or.inr hi)
  refine ⟨⟨?_, ?_⟩, hids⟩
  · intro o ho
    rcases hall with hall | ⟨hne, hall⟩
    · rw [hall] at ho
      have hom : o ∈ allLadderOrders b := by
        rw [hsplit]
        rcases List.mem_append.mp ho with h1 | h1
        · exact List.mem_append.mpr (Or.inl h1)
        · exact List.mem_append.mpr (Or.inr (List.mem_cons_of_mem _ h1))
      have hne_id : o.id ≠ m.id :=
        nodup_map_ne hnd hsplit (List.mem_append.mp ho)
      obtain ⟨hd, hst, hq⟩ := hid o hom
      rw [hdir, dir_get_insert_ne _ _ _ _ hne_id]
      exact ⟨hd, hst, hq⟩
    · rw [hall] at ho
      rcases List.mem_append.mp ho with h1 | h1
      · have hom : o ∈ allLadderOrders b := by
          rw [hsplit]; exact List.mem_append.mpr (Or.inl h1)
        have hne_id : o.id ≠ m.id := nodup_map_ne hnd hsplit (Or.inl h1)
        obtain ⟨hd, hst, hq⟩ := hid o hom
        rw [hdir, dir_get_insert_ne _ _ _ _ hne_id]
        exact ⟨hd, hst, hq⟩
      · rcases List.mem_cons.mp h1 with h1 | h1
        · subst h1
          have h0 : ¬ (m.remaining_quantity - tq = 0) := by
            intro h0
            exact hne (by linarith)
          refine ⟨?_, Or.inr rfl, ?_⟩
          · rw [hdir]
            have heq : ({ m with
                remaining_quantity := m.remaining_quantity - tq,
                status := if m.remaining_quantity - tq = 0
                  then OrderStatus.FILLED
                  else OrderStatus.PARTIAL } : Order) =
                { m with remaining_quantity := m.remaining_quantity - tq,
                         status := OrderStatus.PARTIAL } := by
              simp [h0]
            rw [heq]
            exact dir_get_insert_self _ _ _
          · simp only
            rcases lt_or_eq_of_le htq with hlt | heq2
            · linarith
            · exact absurd heq2.symm hne
        · have hom : o ∈ allLadderOrders b := by
            rw [hsplit]
            exact List.mem_append.mpr (Or.inr (List.mem_cons_of_mem _ h1))
          have hne_id : o.id ≠ m.id := nodup_map_ne hnd hsplit (Or.inr h1)
          obtain ⟨hd, hst, hq⟩ := hid o hom
          rw [hdir, dir_get_insert_ne _ _ _ _ hne_id]
          exact ⟨hd, hst, hq⟩
  · rcases hall with hall | ⟨hne, hall⟩
    · have hsub : (ladderIds b').Sublist (ladderIds b) := by
        unfold ladderIds
        rw [hall, hsplit]
        exact ((List.sublist_cons_self m suf).append_left pre).map Order.id
      exact hnd.sublist hsub
    · have heq : ladderIds b' = ladderIds b := by
        unfold ladderIds
        rw [hall, hsplit]
        simp [List.map_append]
      rw [heq]
      exact hnd

theorem matchStep_Inv8 (b : Book) (order : Order) (bp : Int) (m : Order)
    (side : OrderSide) (h : bestOpp side b = some (bp, m)) (hb : Inv8 b) :
    Inv8 (matchStep b order bp m side).1 ∧
      ∀ i ∈ ladderIds (matchStep b order bp m side).1, i ∈ ladderIds b := by
  obtain ⟨rest, tl, hshape⟩ := bestOpp_shape side b bp m h
  have htqle : min order.remaining_quantity m.remaining_quantity ≤
      m.remaining_quantity := min_le_right _ _
  cases side
  case BUY =>
    simp only [oppLadder] at hshape
    refine Inv8_after_match b _ m
      (min order.remaining_quantity m.remaining_quantity)
      (Ladder.ordersOf b.bids) (rest ++ Ladder.ordersOf tl) hb ?_
      (matchStep_orders b order bp m OrderSide.BUY) htqle ?_
    · unfold allLadderOrders
      rw [hshape, ordersOf_cons]
      simp
    · unfold allLadderOrders
      rw [(matchStep_ladders b order bp m).1.1,
        (matchStep_ladders b order bp m).1.2, hshape, ordersOf_updateLadder]
      by_cases he : m.remaining_quantity =
          min order.remaining_quantity m.remaining_quantity
      · left
        rw [if_pos he]
      · right
        refine ⟨he, ?_⟩
        rw [if_neg he]
        simp
  case SELL =>
    simp only [oppLadder] at hshape
    refine Inv8_after_match b _ m
      (min order.remaining_quantity m.remaining_quantity)
      [] ((rest ++ Ladder.ordersOf tl) ++ Ladder.ordersOf b.asks) hb ?_
      (matchStep_orders b order bp m OrderSide.SELL) htqle ?_
    · unfold allLadderOrders
      rw [hshape, ordersOf_cons]
      simp
    · unfold allLadderOrders
      rw [(matchStep_ladders b order bp m).2.1,
        (matchStep_ladders b order bp m).2.2, hshape, ordersOf_updateLadder]
      by_cases he : m.remaining_quantity =
          min order.remaining_quantity m.remaining_quantity
      · left
        rw [if_pos he]
        simp
      · right
        refine ⟨he, ?_⟩
        rw [if_neg he]
        simp

theorem limitLoop_Inv8 (side : OrderSide) (price : Int) (b : Book)
    (order : Order) (hb : Inv8 b) :
    Inv8 (limitLoop side price b order).1 ∧
      ∀ i ∈ ladderIds (limitLoop side price b order).1, i ∈ ladderIds b := by
  induction b, order using limitLoop.induct side price with
  | case1 b order bp m h hp b' order' t hs hz =>
    rw [limitLoop_last side price b order bp m b' order' t h hp hs hz]
    have := matchStep_Inv8 b order bp m side h hb
    rw [hs] at this
    exact this
  | case2 b order bp m h hp b' order' t hs hz b'' order'' ts hrec ih =>
    rw [limitLoop_continue side price b order bp m b' b'' order' order'' t ts
      h hp hs hz hrec]
    have hstep := matchStep_Inv8 b order bp m side h hb
    rw [hs] at hstep
    have := ih hstep.1
    rw [hrec] at this
    exact ⟨this.1, fun i hi => hstep.2 i (this.2 i hi)⟩
  | case3 b order bp m h hp =>
    rw [limitLoop_nocross side price b order bp m h (by simpa using hp)]
    exact ⟨hb, fun i hi => hi⟩
  | case4 b order h =>
    rw [limitLoop_none side price b order h]
    exact ⟨hb, fun i hi => hi⟩

theorem marketLoop_Inv8 (side : OrderSide) (b : Book) (order : Order)
    (hb : Inv8 b) :
    Inv8 (marketLoop side b order).1 ∧
      ∀ i ∈ ladderIds (marketLoop side b order).1, i ∈ ladderIds b := by
  induction b, order using marketLoop.induct side with
  | case1 b order bp m h b' order' t hs hz =>
    rw [marketLoop_last side b order bp m b' order' t h hs hz]
    have := matchStep_Inv8 b order bp m side h hb
    rw [hs] at this
    exact this
  | case2 b order bp m h b' order' t hs hz b'' order'' ts hrec ih =>
    rw [marketLoop_continue side b order bp m b' b'' order' order'' t ts
      h hs hz hrec]
    have hstep := matchStep_Inv8 b order bp m side h hb
    rw [hs] at hstep
    have := ih hstep.1
    rw [hrec] at this
    exact ⟨this.1, fun i hi => hstep.2 i (this.2 i hi)⟩
  | case3 b order h =>
    rw [marketLoop_none side b order h]
    exact ⟨hb, fun i hi => hi⟩

theorem removeById_decomp (os : List Order) (oid : Nat) (c : Order)
    (os' : List Order) (h : removeById os oid = some (c, os')) :
    ∃ ys zs, os = ys ++ c :: zs ∧ os' = ys ++ zs ∧ c.id = oid := by
  induction os generalizing c os' with
  | nil => simp [removeById] at h
  | cons a t ih =>
    by_cases ha : a.id = oid
    · simp only [removeById, if_pos ha, Option.some.injEq,
        Prod.mk.injEq] at h
      exact ⟨[], t, by simp [h.1], by simp [h.2], by rw [← h.1]; exact ha⟩
    · simp only [removeById, if_neg ha] at h
      rcases hr : removeById t oid with _ | ⟨c1, t1⟩
      · rw [hr] at h; simp at h
      · rw [hr] at h
        simp only [Option.some.injEq, Prod.mk.injEq] at h
        obtain ⟨ys, zs, h1, h2, h3⟩ := ih c1 t1 hr
        exact ⟨a :: ys, zs, by simp [h1, ← h.1], by simp [← h.2, h2],
          by rw [← h.1]; exact h3⟩

theorem getLevel?_decomp (l : Ladder) (p : Int) (os : List Order)
    (h : l.getLevel? p = some os) :
    ∃ u v, l = u ++ (p, os) :: v ∧
      (∀ os2, Ladder.setLevel l p os2 = u ++ (p, os2) :: v) ∧
      Ladder.removeKey l p = u ++ v := by
  induction l with
  | nil => simp [Ladder.getLevel?] at h
  | cons kv t ih =>
    obtain ⟨q, v0⟩ := kv
    by_cases hq : q = p
    · subst hq
      simp [Ladder.getLevel?] at h
      subst h
      exact ⟨[], t, rfl,
        fun os2 => by simp [Ladder.setLevel],
        by simp [Ladder.removeKey]⟩
    · simp only [Ladder.getLevel?, if_neg hq] at h
      obtain ⟨u, v, h1, h2, h3⟩ := ih h
      refine ⟨(q, v0) :: u, v, by simp [h1], ?_, ?_⟩
      · intro os2
        simp only [Ladder.setLevel, if_neg hq, h2]
        rfl
      · simp only [Ladder.removeKey, if_neg hq, h3]
        rfl

theorem ordersOf_append (u v : Ladder) :
    Ladder.ordersOf (u ++ v) = Ladder.ordersOf u ++ Ladder.ordersOf v := by
  simp [Ladder.ordersOf]

theorem ordersOf_push_perm (l : Ladder) (p : Int) (o : Order) :
    (Ladder.ordersOf (l.push p o)).Perm (Ladder.ordersOf l ++ [o]) := by
  induction l with
  | nil => simp [Ladder.push, Ladder.ordersOf]
  | cons kv t ih =>
    obtain ⟨q, v⟩ := kv
    by_cases h1 : p < q
    · simp only [Ladder.push, if_pos h1, ordersOf_cons]
      exact (List.perm_append_singleton o _).symm
    · by_cases h2 : p = q
      · simp only [Ladder.push, if_neg h1, if_pos h2, ordersOf_cons]
        have e1 : (v ++ [o]) ++ Ladder.ordersOf t =
            v ++ ([o] ++ Ladder.ordersOf t) := by rw [List.append_assoc]
        have e2 : (v ++ Ladder.ordersOf t) ++ [o] =
            v ++ (Ladder.ordersOf t ++ [o]) := by rw [List.append_assoc]
        rw [e1, e2]
        exact List.Perm.append_left v List.perm_append_comm
      · simp only [Ladder.push, if_neg h1, if_neg h2, ordersOf_cons]
        have e2 : (v ++ Ladder.ordersOf t) ++ [o] =
            v ++ (Ladder.ordersOf t ++ [o]) := by rw [List.append_assoc]
        rw [e2]
        exact List.Perm.append_left v ih

theorem Inv8_after_remove (b b' : Book) (c : Order) (pre suf : List Order)
    (hb : Inv8 b)
    (hsplit : allLadderOrders b = pre ++ c :: suf)
    (hall : allLadderOrders b' = pre ++ suf)
    (hdir : b'.orders = b.orders.insert c.id
      { c with status := OrderStatus.CANCELLED }) :
    Inv8 b' := by
  obtain ⟨hid, hnd⟩ := hb
  constructor
  · intro o ho
    rw [hall] at ho
    have hom : o ∈ allLadderOrders b := by
      rw [hsplit]
      rcases List.mem_append.mp ho with h1 | h1
      · exact List.mem_append.mpr (Or.inl h1)
      · exact List.mem_append.mpr (Or.inr (List.mem_cons_of_mem _ h1))
    have hne_id : o.id ≠ c.id :=
      nodup_map_ne hnd hsplit (List.mem_append.mp ho)
    obtain ⟨hd, hst, hq⟩ := hid o hom
    rw [hdir, dir_get_insert_ne _ _ _ _ hne_id]
    exact ⟨hd, hst, hq⟩
  · have hsub : (ladderIds b').Sublist (ladderIds b) := by
      unfold ladderIds
      rw [hall, hsplit]
      exact ((List.sublist_cons_self c suf).append_left pre).map Order.id
    exact hnd.sublist hsub

/-- Submit precondition strengthened by the data model's id uniqueness:
the submitted id has no currently-open (PENDING/PARTIAL) directory entry. -/
def SubmitPreU (b : Book) (o : Order) : Prop :=
  SubmitPre o ∧
  ∀ ord, b.orders.get? o.id = some ord →
    ord.status ≠ OrderStatus.PENDING ∧ ord.status ≠ OrderStatus.PARTIAL

/-- Book states reachable when submitted ids are never reused while an
order with that id is still open. -/
inductive ReachableU : Book → Prop where
  | new (iid : Nat) : ReachableU (Book.new iid)
  | add (b : Book) (o : Order) (b' : Book) (ts : List Trade) :
      ReachableU b → SubmitPreU b o → addOrder b o = some (b', ts) →
      ReachableU b'
  | cancel (b : Book) (oid : Nat) (r : Option Order) (b' : Book) :
      ReachableU b → cancelOrder b oid = some (r, b') → ReachableU b'

theorem fresh_not_in_ladder (b : Book) (o : Order) (hb : Inv8 b)
    (hfresh : ∀ ord, b.orders.get? o.id = some ord →
      ord.status ≠ OrderStatus.PENDING ∧
      ord.status ≠ OrderStatus.PARTIAL) :
    o.id ∉ ladderIds b := by
  intro hin
  obtain ⟨x, hx, hxid⟩ := List.mem_map.mp hin
  obtain ⟨hd, hst, -⟩ := hb.1 x hx
  rw [hxid] at hd
  obtain ⟨h1, h2⟩ := hfresh x hd
  rcases hst with hh | hh
  · exact h1 hh
  · exact h2 hh

theorem Inv8_insert_nonladder (b b2 : Book) (x : Order)
    (hbids : b2.bids = b.bids) (hasks : b2.asks = b.asks)
    (horders : b2.orders = b.orders.insert x.id x)
    (hx : x.id ∉ ladderIds b) (hb : Inv8 b) : Inv8 b2 := by
  have hall : allLadderOrders b2 = allLadderOrders b := by
    unfold allLadderOrders
    rw [hbids, hasks]
  obtain ⟨hid, hnd⟩ := hb
  constructor
  · intro o ho
    rw [hall] at ho
    obtain ⟨hd, hst, hq⟩ := hid o ho
    have hne : o.id ≠ x.id := fun he =>
      hx (he ▸ List.mem_map_of_mem Order.id ho)
    rw [horders, dir_get_insert_ne _ _ _ _ hne]
    exact ⟨hd, hst, hq⟩
  · unfold ladderIds
    rw [hall]
    exact hnd

theorem Inv8_push_book (b b2 : Book) (o1 : Order)
    (hall2 : (allLadderOrders b2).Perm (allLadderOrders b ++ [o1]))
    (horders : b2.orders = b.orders.insert o1.id o1)
    (hfresh : o1.id ∉ ladderIds b)
    (hst1 : o1.status = OrderStatus.PENDING ∨
      o1.status = OrderStatus.PARTIAL)
    (hq1 : 0 < o1.remaining_quantity)
    (hb : Inv8 b) : Inv8 b2 := by
  obtain ⟨hid, hnd⟩ := hb
  constructor
  · intro o ho
    have ho' : o ∈ allLadderOrders b ++ [o1] := hall2.mem_iff.mp ho
    rcases List.mem_append.mp ho' with h1 | h1
    · obtain ⟨hd, hst, hq⟩ := hid o h1
      have hne : o.id ≠ o1.id := fun he =>
        hfresh (he ▸ List.mem_map_of_mem Order.id h1)
      rw [horders, dir_get_insert_ne _ _ _ _ hne]
      exact ⟨hd, hst, hq⟩
    · obtain rfl := List.mem_singleton.mp h1
      rw [horders]
      exact ⟨dir_get_insert_self _ _ _, hst1, hq1⟩
  · have hperm : (ladderIds b2).Perm (ladderIds b ++ [o1.id]) := by
      unfold ladderIds
      have := hall2.map Order.id
      simpa using this
    rw [hperm.nodup_iff]
    refine List.Nodup.append hnd (by simp) ?_
    intro a ha hb2
    rw [List.mem_singleton] at hb2
    exact hfresh (hb2 ▸ ha)

theorem addOrder_Inv8 (b : Book) (o : Order) (b' : Book) (ts : List Trade)
    (hb : Inv8 b) (hpre : SubmitPreU b o)
    (h : addOrder b o = some (b', ts)) : Inv8 b' := by
  have hfresh : o.id ∉ ladderIds b := fresh_not_in_ladder b o hb hpre.2
  cases hty : o.order_type with
  | LIMIT =>
    rw [addOrder_limit b o hty] at h
    obtain ⟨p, b1, o1, hpr, hl⟩ := processLimitOrder_ts b _ b' ts h
    rw [processLimitOrder_eq b _ p b1 o1 ts hpr hl] at h
    simp only [Option.some.injEq, Prod.mk.injEq] at h
    obtain ⟨hb'', -⟩ := h
    have hloop := limitLoop_Inv8
      ({ o with status := OrderStatus.PENDING} : Order).side p b
      { o with status := OrderStatus.PENDING} hb
    rw [hl] at hloop
    simp only at hloop
    obtain ⟨hinv1, hids1⟩ := hloop
    have hfresh1 : o.id ∉ ladderIds b1 := fun hin => hfresh (hids1 _ hin)
    have hcore := limitLoop_coreEq
      ({ o with status := OrderStatus.PENDING} : Order).side p b
      { o with status := OrderStatus.PENDING}
    rw [hl] at hcore
    simp only at hcore
    have ho1id : o1.id = o.id := hcore.1
    have hfresh1' : o1.id ∉ ladderIds b1 := by rw [ho1id]; exact hfresh1
    rw [← hb'']
    by_cases hq : 0 < o1.remaining_quantity
    · rw [if_pos hq]
      have hstat := limitLoop_status_pos
        ({ o with status := OrderStatus.PENDING} : Order).side p b
        { o with status := OrderStatus.PENDING}
      rw [hl] at hstat
      simp only at hstat
      have hst1 : o1.status = OrderStatus.PENDING ∨
          o1.status = OrderStatus.PARTIAL := by
        rcases hstat hq with h1 | h1
        · exact Or.inl h1
        · exact Or.inr h1
      cases ({ o with status := OrderStatus.PENDING} : Order).side with
      | BUY =>
        refine Inv8_push_book b1 _ o1 ?_ rfl hfresh1' hst1 hq hinv1
        unfold allLadderOrders
        have h1 := (ordersOf_push_perm b1.bids p o1).append_right
          (Ladder.ordersOf b1.asks)
        refine List.Perm.trans h1 ?_
        rw [List.append_assoc, List.append_assoc]
        exact List.Perm.append_left _ List.perm_append_comm
      | SELL =>
        refine Inv8_push_book b1 _ o1 ?_ rfl hfresh1' hst1 hq hinv1
        unfold allLadderOrders
        rw [List.append_assoc]
        exact List.Perm.append_left _ (ordersOf_push_perm b1.asks p o1)
    · rw [if_neg hq]
      exact Inv8_insert_nonladder b1 _ o1 rfl rfl rfl hfresh1' hinv1
  | MARKET =>
    rw [addOrder_market b o hty] at h
    simp only [Option.some.injEq] at h
    rcases hl : marketLoop ({ o with status := OrderStatus.PENDING} :
        Order).side b { o with status := OrderStatus.PENDING}
      with ⟨b1, o1, ts1⟩
    have hloop := marketLoop_Inv8
      ({ o with status := OrderStatus.PENDING} : Order).side b
      { o with status := OrderStatus.PENDING} hb
    rw [hl] at hloop
    simp only at hloop
    obtain ⟨hinv1, hids1⟩ := hloop
    have hcore := marketLoop_coreEq
      ({ o with status := OrderStatus.PENDING} : Order).side b
      { o with status := OrderStatus.PENDING}
    rw [hl] at hcore
    simp only at hcore
    have ho1id : o1.id = o.id := hcore.1
    have hfresh1' : o1.id ∉ ladderIds b1 := by
      rw [ho1id]
      exact fun hin => hfresh (hids1 _ hin)
    by_cases hq : 0 < o1.remaining_quantity
    · rw [processMarketOrder_pos b _ b1 o1 ts1 hl hq] at h
      simp only [Prod.mk.injEq] at h
      rw [← h.1]
      exact Inv8_insert_nonladder b1 _
        { o1 with status := OrderStatus.REJECTED} rfl rfl rfl hfresh1' hinv1
    · rw [processMarketOrder_nonpos b _ b1 o1 ts1 hl hq] at h
      simp only [Prod.mk.injEq] at h
      rw [← h.1]
      exact Inv8_insert_nonladder b1 _ o1 rfl rfl rfl hfresh1' hinv1

theorem cancelOrder_Inv8 (b : Book) (oid : Nat) (r : Option Order)
    (b' : Book) (hb : Inv8 b) (h : cancelOrder b oid = some (r, b')) :
    Inv8 b' := by
  rcases r with _ | r
  · rw [cancelOrder_none_book b oid b' h]
    exact hb
  · obtain ⟨order, price, os, cancelled, os', hget, hpr, hos, hrm, hr, hb'⟩ :=
      cancelOrder_success_book b oid r b' h
    obtain ⟨ys, zs, hos_split, hos', hcid⟩ :=
      removeById_decomp os oid cancelled os' hrm
    obtain ⟨u, v, hlad, hset, hremk⟩ :=
      getLevel?_decomp (sideLadder order.side b) price os hos
    have hl' : Ladder.ordersOf
        (if os' = [] then (sideLadder order.side b).removeKey price
         else (sideLadder order.side b).setLevel price os') =
        Ladder.ordersOf u ++ (os' ++ Ladder.ordersOf v) := by
      by_cases he : os' = []
      · rw [if_pos he, hremk, ordersOf_append, he]
        simp
      · rw [if_neg he, hset os', ordersOf_append, ordersOf_cons]
    have hlado : Ladder.ordersOf (sideLadder order.side b) =
        Ladder.ordersOf u ++ ((ys ++ cancelled :: zs) ++
          Ladder.ordersOf v) := by
      rw [hlad, ordersOf_append, ordersOf_cons, hos_split]
    subst hb'
    cases hsd : order.side with
    | BUY =>
      rw [hsd] at hlado hl'
      simp only [sideLadder] at hlado hl'
      refine Inv8_after_remove b _ cancelled
        (Ladder.ordersOf u ++ ys)
        (zs ++ (Ladder.ordersOf v ++ Ladder.ordersOf b.asks)) hb ?_ ?_ ?_
      · unfold allLadderOrders
        rw [hlado]
        simp [List.append_assoc]
      · unfold allLadderOrders
        show Ladder.ordersOf
            (if os' = [] then (sideLadder OrderSide.BUY b).removeKey price
             else (sideLadder OrderSide.BUY b).setLevel price os') ++
            Ladder.ordersOf b.asks = _
        simp only [sideLadder] at hl' ⊢
        rw [hl', hos']
        simp [List.append_assoc]
      · show (b.orders.insert oid
            { cancelled with status := OrderStatus.CANCELLED }) =
          b.orders.insert cancelled.id
            { cancelled with status := OrderStatus.CANCELLED }
        rw [hcid]
    | SELL =>
      rw [hsd] at hlado hl'
      simp only [sideLadder] at hlado hl'
      refine Inv8_after_remove b _ cancelled
        (Ladder.ordersOf b.bids ++ (Ladder.ordersOf u ++ ys))
        (zs ++ Ladder.ordersOf v) hb ?_ ?_ ?_
      · unfold allLadderOrders
        rw [hlado]
        simp [List.append_assoc]
      · unfold allLadderOrders
        show Ladder.ordersOf b.bids ++ Ladder.ordersOf
            (if os' = [] then (sideLadder OrderSide.SELL b).removeKey price
             else (sideLadder OrderSide.SELL b).setLevel price os') = _
        simp only [sideLadder] at hl' ⊢
        rw [hl', hos']
        simp [List.append_assoc]
      · show (b.orders.insert oid
            { cancelled with status := OrderStatus.CANCELLED }) =
          b.orders.insert cancelled.id
            { cancelled with status := OrderStatus.CANCELLED }
        rw [hcid]

theorem reachableU_Inv8 (b : Book) (hb : ReachableU b) : Inv8 b := by
  induction hb with
  | new iid =>
    constructor
    · intro o ho
      simp [allLadderOrders, Book.new, Ladder.ordersOf] at ho
    · simp [ladderIds, allLadderOrders, Book.new, Ladder.ordersOf]
  | add b o b' ts hr hpre hadd ih => exact addOrder_Inv8 b o b' ts ih hpre hadd
  | cancel b oid r b' hr hc ih => exact cancelOrder_Inv8 b oid r b' ih hc

def oDupA : Order := fixOrder 21 .LIMIT .BUY (some 100) 5
def oDupB : Order := fixOrder 21 .LIMIT .BUY (some 90) 5

/-- The book after submitting `oDupA` to a fresh book. -/
def bookDupA : Book :=
  { instrument_id := 1, bids := [(100, [oDupA])], asks := [],
    orders := [(21, oDupA)] }

/-- The book after additionally submitting `oDupB` (same id 21, different
price): both rest, the directory keeps only the latest view. -/
def bookDupB : Book :=
  { instrument_id := 1, bids := [(90, [oDupB]), (100, [oDupA])], asks := [],
    orders := [(21, oDupB)] }

/-- C8 counterexample: two submissions that satisfy the stated submit
preconditions (positive original quantity equal to remaining, LIMIT with a
positive price) but reuse the order id leave the resting order `oDupA` in
the bid ladder while the directory holds the different order `oDupB` under
that id — so a resting order need NOT appear in the directory with
identical content under the preconditions as stated. -/
theorem C8_counterexample :
    SubmitPre oDupA ∧ SubmitPre oDupB ∧
    addOrder (Book.new 1) oDupA = some (bookDupA, []) ∧
    addOrder bookDupA oDupB = some (bookDupB, []) ∧
    oDupA ∈ allLadderOrders bookDupB ∧
    bookDupB.orders.get? oDupA.id = some oDupB ∧
    oDupB ≠ oDupA := by
  refine ⟨?_, ?_, ?_, ?_, ?_, ?_, ?_⟩
  · exact ⟨by decide, rfl, fun _ => ⟨100, rfl, by decide⟩,
      fun hh => absurd hh (by decide)⟩
  · exact ⟨by decide, rfl, fun _ => ⟨90, rfl, by decide⟩,
      fun hh => absurd hh (by decide)⟩
  · simp [addOrder, processLimitOrder, limitLoop, bestOpp, getBestAsk,
      getBestBid, Ladder.push, Dir.insert, Book.new, oDupA, fixOrder,
      bookDupA]
  · simp [addOrder, processLimitOrder, limitLoop, bestOpp, getBestAsk,
      getBestBid, pricesMatch, Ladder.push, Dir.insert, oDupA, oDupB,
      fixOrder, bookDupA, bookDupB]
  · decide
  · decide
  · decide

/-- C8 (amended with the data model's id-uniqueness assumption: a submitted
id never collides with a still-open order): after every operation, every
order resting in a ladder appears in the directory with identical content,
its status is PENDING or PARTIAL, and its remaining quantity is positive. -/
theorem C8_directory_completeness (b : Book) (hb : ReachableU b) :
    ∀ o ∈ allLadderOrders b,
      b.orders.get? o.id = some o ∧
      (o.status = OrderStatus.PENDING ∨ o.status = OrderStatus.PARTIAL) ∧
      0 < o.remaining_quantity :=
  (reachableU_Inv8 b hb).1

theorem addOrder_new_oSell7 :
    addOrder (Book.new 1) oSell7 = some (bookAsk7, []) := by
  simp [addOrder, processLimitOrder, limitLoop, bestOpp, getBestAsk,
    getBestBid, Ladder.push, Dir.insert, Book.new, oSell7, fixOrder,
    bookAsk7]

/-- C8 witness: after resting `oSell7` on a fresh book, its directory entry
is itself, PENDING, with remaining 10 > 0. -/
theorem C8_witness :
    bookAsk7.orders.get? oSell7.id = some oSell7 ∧
    (oSell7.status = OrderStatus.PENDING ∨
      oSell7.status = OrderStatus.PARTIAL) ∧
    0 < oSell7.remaining_quantity := by
  have hreach : ReachableU bookAsk7 :=
    ReachableU.add (Book.new 1) oSell7 bookAsk7 []
      (ReachableU.new 1)
      ⟨⟨by decide, rfl, fun _ => ⟨100, rfl, by decide⟩,
        fun hh => absurd hh (by decide)⟩,
        fun ord hord => by simp [Book.new, Dir.get?] at hord⟩
      addOrder_new_oSell7
  exact C8_directory_completeness bookAsk7 hreach oSell7 (by decide)

end RSE
